import Mathlib

/-!
Shallow embedding of the html-css-parser repository (src/src/css/tokenizer.rs,
src/src/css/parser.rs, src/src/html/tokenizer.rs, src/src/html/parser.rs).

Modelling conventions, fixed once for the whole file:

* A Rust `&str` is a `Str := List Char`.  The Rust code stores a cursor
  `position : usize` that it increments once per *character* (via
  `self.input.chars().nth(self.position)` and `advance`), yet it also uses the
  same number as a *byte* offset (`self.input.len()`, `&self.input[a..b]`).
  The embedding keeps both readings: `currentChar` indexes characters,
  `byteLen`/`sliceBytes` work on UTF-8 byte offsets, and a byte slice that is
  out of bounds or not on a character boundary is the Rust panic, modelled as
  `Res.crash`.
* Loops are written with explicit fuel (structural recursion); tokenizer-
  internal loops always receive the fuel `byteLen s + 1`, which dominates the
  number of `advance` steps any of them can make, so for the tokenizers
  `Res.nofuel` is unreachable except through the one genuinely unproductive
  loop (the HTML start-tag attribute loop, which keeps an honest caller-
  supplied fuel).  Parser loops keep a caller-supplied fuel; a result of
  `Res.nofuel` for every fuel is a non-terminating Rust loop.
* The `f64` values inside CSS number tokens are represented by the consumed
  numeric literal text.  `str::parse::<f64>` success is modelled by
  `rustF64ParseOk`, and the composite `Display ∘ parse` used by
  `token_to_string` by `rustF64Display` (a decimal normalisation; exact for
  literals of at most 15 significant digits thanks to the shortest-round-trip
  property of binary64 formatting, and every concrete literal evaluated in
  this file is far below that bound).
* `HashMap` fields (`Rule.declarations`, `Element.attributes`) are modelled as
  association lists with unique keys in first-insertion order; `insert`
  overwrites the value of an existing key in place (`insertAssoc`).
* Unicode character classes: the Rust dispatch tables use only ASCII ranges
  ('0'..='9', 'a'..='z' | 'A'..='Z'), which are modelled exactly.
  `char::is_whitespace` (the Unicode White_Space set, finite) is modelled
  exactly by `rustIsWhitespace`.  `char::is_alphanumeric`/`is_alphabetic`
  consult full Unicode tables; they are modelled by their ASCII restrictions,
  and every theorem quantifying over inputs that could reach those functions
  on non-ASCII characters carries an `asciiStr` hypothesis.
-/

set_option maxRecDepth 4000

/-- A Rust string slice, as its sequence of characters. -/
abbrev Str : Type := List Char

/-- Result of running embedded Rust code: a value, a Rust panic (`crash`),
or fuel exhaustion (`nofuel`, marking a loop that did not finish within the
given fuel). -/
inductive Res (α : Type) where
  | ok (a : α)
  | crash
  | nofuel
deriving DecidableEq

def Res.bind {α β : Type} : Res α → (α → Res β) → Res β
  | .ok a, f => f a
  | .crash, _ => .crash
  | .nofuel, _ => .nofuel

instance : Monad Res where
  pure := .ok
  bind := Res.bind

/-- Number of bytes of the UTF-8 encoding of one character
(the standard UTF-8 length table). -/
def chSize (c : Char) : Nat :=
  if c.toNat < 128 then 1 else if c.toNat < 2048 then 2
  else if c.toNat < 65536 then 3 else 4

/-- Models Rust `str::len`: the length of the string in bytes. -/
def byteLen (s : Str) : Nat := (List.map chSize s).sum

/-- Models `self.input.chars().nth(pos)`: character-wise indexing. -/
def currentChar (s : Str) (pos : Nat) : Option Char := List.get? s pos

/-- Models `self.peek_char(off)`. -/
def peekChar (s : Str) (pos off : Nat) : Option Char := List.get? s (pos + off)

/-- Models `self.advance()`: increment the cursor while it is below the
byte length of the input. -/
def advance (s : Str) (pos : Nat) : Nat := if pos < byteLen s then pos + 1 else pos

/-- Characters occupying the first `b` bytes of `s`, if `b` is a character
boundary that is within bounds; `none` is the Rust slice panic. -/
def takeBytes : Str → Nat → Option Str
  | _, 0 => some []
  | [], _ + 1 => none
  | c :: cs, b + 1 =>
      if chSize c ≤ b + 1 then Option.map (c :: ·) (takeBytes cs (b + 1 - chSize c))
      else none

/-- Characters of `s` after its first `a` bytes, if `a` is a character
boundary within bounds; `none` is the Rust slice panic. -/
def dropBytes : Str → Nat → Option Str
  | s, 0 => some s
  | [], _ + 1 => none
  | c :: cs, a + 1 =>
      if chSize c ≤ a + 1 then dropBytes cs (a + 1 - chSize c) else none

/-- Models the Rust byte slice `&s[a..b]` (panics on a reversed range or a
non-boundary endpoint). -/
def sliceBytes (s : Str) (a b : Nat) : Option Str :=
  if a ≤ b then Option.bind (takeBytes s b) (fun t => dropBytes t a) else none

/-- Lift a slice result into `Res`: a failed slice is a panic. -/
def ofSlice {α : Type} : Option α → Res α
  | some a => .ok a
  | none => .crash

/-- Models Rust `char::is_whitespace`: the Unicode White_Space property
(a finite, fully enumerated set). -/
def rustIsWhitespace (c : Char) : Bool :=
  c.toNat = 9 || c.toNat = 10 || c.toNat = 11 || c.toNat = 12 || c.toNat = 13 ||
  c.toNat = 32 || c.toNat = 133 || c.toNat = 160 || c.toNat = 5760 ||
  (8192 ≤ c.toNat && c.toNat ≤ 8202) || c.toNat = 8232 || c.toNat = 8233 ||
  c.toNat = 8239 || c.toNat = 8287 || c.toNat = 12288

/-- Models Rust `char::is_alphanumeric` (Unicode Alphabetic ∪ Number) by its
ASCII restriction; theorems touching this function on arbitrary input carry
an `asciiStr` hypothesis. -/
def rustIsAlphanumeric (c : Char) : Bool := c.isAlphanum

/-- Models Rust `char::is_alphabetic` by its ASCII restriction (see
`rustIsAlphanumeric`). -/
def rustIsAlphabetic (c : Char) : Bool := c.isAlpha

/-- The identifier character class used throughout both tokenizers:
`ch.is_alphanumeric() || ch == '-' || ch == '_'`. -/
def identClass (c : Char) : Bool := rustIsAlphanumeric c || c = '-' || c = '_'

/-- Models Rust `str::trim` (both ends, Unicode whitespace). -/
def rustTrim (s : Str) : Str :=
  List.reverse (List.dropWhile rustIsWhitespace
    (List.reverse (List.dropWhile rustIsWhitespace s)))

/-- All characters ASCII: on such strings the char cursor and the byte
offsets of the Rust code coincide, and the modelled Unicode classes are
exact. -/
def asciiStr (s : Str) : Prop := ∀ c ∈ s, c.toNat < 128

instance : DecidablePred asciiStr := fun s =>
  inferInstanceAs (Decidable (∀ c ∈ s, c.toNat < 128))

/-- The shared shape of every `while let Some(ch) = self.current_char()`
loop of the two tokenizers that advances while a character test holds:
returns the cursor at the first failing character (or at end of input). -/
def scanWhile (p : Char → Bool) (s : Str) : Nat → Nat → Res Nat
  | 0, _ => .nofuel
  | fuel + 1, pos =>
      match currentChar s pos with
      | some c => if p c then scanWhile p s fuel (advance s pos) else .ok pos
      | none => .ok pos

/-- `skip_whitespace` of both tokenizers (and the first half of the CSS
tokenizer's `consume_whitespace`). -/
def skipWsPos (s : Str) (pos : Nat) : Res Nat :=
  scanWhile rustIsWhitespace s (byteLen s + 1) pos

/-- CSS token (src/src/css/tokenizer.rs, `CssToken`).  String-bearing
variants hold the sliced text; the `f64` of the numeric variants is
represented by the consumed literal (see the file header). -/
inductive CssToken where
  | Ident (s : Str)
  | String (s : Str)
  | Number (lit : Str)
  | Dimension (lit : Str) (unit : Str)
  | Percentage (lit : Str)
  | Hash (s : Str)
  | Delim (c : Char)
  | LeftParen
  | RightParen
  | LeftBrace
  | RightBrace
  | LeftBracket
  | RightBracket
  | Colon
  | Semicolon
  | Comma
  | Whitespace
  | Comment (s : Str)
  | AtKeyword (s : Str)
  | Url (s : Str)
deriving DecidableEq

/-- `consume_comment`'s scan for `*/` (checked only while
`position + 1 < input.len()`). -/
def cssCommentLoop (s : Str) : Nat → Nat → Nat → Res (CssToken × Nat)
  | 0, _, _ => .nofuel
  | fuel + 1, start, pos =>
      if pos + 1 < byteLen s then
        if currentChar s pos = some '*' ∧ peekChar s pos 1 = some '/' then
          Res.bind (ofSlice (sliceBytes s start pos)) fun content =>
            .ok (.Comment content, advance s (advance s pos))
        else cssCommentLoop s fuel start (advance s pos)
      else
        Res.bind (ofSlice (dropBytes s start)) fun content =>
          .ok (.Comment content, byteLen s)

/-- `consume_comment`: skip the two marker characters, then scan. -/
def cssConsumeComment (s : Str) (pos : Nat) : Res (CssToken × Nat) :=
  cssCommentLoop s (byteLen s + 1) (advance s (advance s pos)) (advance s (advance s pos))

/-- `consume_string`'s scan (backslash skips the next character; an
unterminated string consumes to end of input). -/
def cssStringLoop (s : Str) (q : Char) : Nat → Nat → Nat → Res (CssToken × Nat)
  | 0, _, _ => .nofuel
  | fuel + 1, start, pos =>
      match currentChar s pos with
      | some ch =>
          if ch = q then
            Res.bind (ofSlice (sliceBytes s start pos)) fun content =>
              .ok (.String content, advance s pos)
          else if ch = '\\' then
            let p1 := advance s pos
            if (currentChar s p1).isSome then cssStringLoop s q fuel start (advance s p1)
            else cssStringLoop s q fuel start p1
          else cssStringLoop s q fuel start (advance s pos)
      | none =>
          Res.bind (ofSlice (dropBytes s start)) fun content =>
            .ok (.String content, byteLen s)

/-- `consume_string`: skip the opening quote, then scan. -/
def cssConsumeString (s : Str) (pos : Nat) (q : Char) : Res (CssToken × Nat) :=
  cssStringLoop s q (byteLen s + 1) (advance s pos) (advance s pos)

/-- `consume_hash`: `#` plus an identifier run, or a bare `#` delimiter. -/
def cssConsumeHash (s : Str) (pos : Nat) : Res (CssToken × Nat) :=
  Res.bind (scanWhile identClass s (byteLen s + 1) (advance s pos)) fun p2 =>
    if advance s pos = p2 then .ok (.Delim '#', p2)
    else
      Res.bind (ofSlice (sliceBytes s (advance s pos) p2)) fun content =>
        .ok (.Hash content, p2)

/-- `consume_at_keyword`: `@` plus an identifier run, or a bare `@`
delimiter. -/
def cssConsumeAt (s : Str) (pos : Nat) : Res (CssToken × Nat) :=
  Res.bind (scanWhile identClass s (byteLen s + 1) (advance s pos)) fun p2 =>
    if advance s pos = p2 then .ok (.Delim '@', p2)
    else
      Res.bind (ofSlice (sliceBytes s (advance s pos) p2)) fun content =>
        .ok (.AtKeyword content, p2)

/-- End position of `consume_number`'s digit-and-single-dot loop.  The Rust
loop carries a `has_dot` flag; it is equivalent to a digit run, then at most
one `.`, then a second digit run (a second dot terminates the run). -/
def cssNumRunEnd (s : Str) (pos : Nat) : Res Nat :=
  Res.bind (scanWhile Char.isDigit s (byteLen s + 1) pos) fun p2 =>
    if currentChar s p2 = some '.' then
      scanWhile Char.isDigit s (byteLen s + 1) (advance s p2)
    else .ok p2

/-- `consume_number`: optional minus sign, digit/dot run, then classify by
the following character (`%` → Percentage, alphabetic → Dimension with an
alphanumeric unit run, otherwise Number). -/
def cssConsumeNumber (s : Str) (pos : Nat) : Res (CssToken × Nat) :=
  let p1 := if currentChar s pos = some '-' then advance s pos else pos
  Res.bind (cssNumRunEnd s p1) fun p3 =>
    Res.bind (ofSlice (sliceBytes s pos p3)) fun lit =>
      if currentChar s p3 = some '%' then .ok (.Percentage lit, advance s p3)
      else
        match currentChar s p3 with
        | some ch =>
            if rustIsAlphabetic ch then
              Res.bind (scanWhile rustIsAlphanumeric s (byteLen s + 1) p3) fun p4 =>
                Res.bind (ofSlice (sliceBytes s p3 p4)) fun u =>
                  .ok (.Dimension lit u, p4)
            else .ok (.Number lit, p3)
        | none => .ok (.Number lit, p3)

/-- Quoted branch of the `url(...)` mode of `consume_ident_or_url`:
scan to the closing quote, then skip whitespace and an optional `)`. -/
def cssUrlQuoted (s : Str) (q : Char) (start : Nat) : Res (CssToken × Nat) :=
  Res.bind (scanWhile (fun c => !(c = q : Bool)) s (byteLen s + 1) start) fun e =>
    match currentChar s e with
    | some _ =>
        Res.bind (ofSlice (sliceBytes s start e)) fun url =>
          Res.bind (skipWsPos s (advance s e)) fun p2 =>
            if currentChar s p2 = some ')' then .ok (.Url url, advance s p2)
            else .ok (.Url url, p2)
    | none =>
        Res.bind (ofSlice (dropBytes s start)) fun url => .ok (.Url url, byteLen s)

/-- Unquoted branch of the `url(...)` mode: scan to `)`, trimming the body;
an unterminated url consumes to end of input without trimming. -/
def cssUrlUnquoted (s : Str) (start : Nat) : Res (CssToken × Nat) :=
  Res.bind (scanWhile (fun c => !(c = ')' : Bool)) s (byteLen s + 1) start) fun e =>
    match currentChar s e with
    | some _ =>
        Res.bind (ofSlice (sliceBytes s start e)) fun url =>
          .ok (.Url (rustTrim url), advance s e)
    | none =>
        Res.bind (ofSlice (dropBytes s start)) fun url => .ok (.Url url, byteLen s)

/-- The `url(` mode entered by `consume_ident_or_url` after the `(`:
skip leading whitespace, then dispatch on an optional opening quote. -/
def cssConsumeUrl (s : Str) (pos : Nat) : Res (CssToken × Nat) :=
  Res.bind (skipWsPos s pos) fun p1 =>
    match currentChar s p1 with
    | some ch =>
        if ch = '"' ∨ ch = '\x27' then cssUrlQuoted s ch (advance s p1)
        else cssUrlUnquoted s p1
    | none => cssUrlUnquoted s p1

/-- `consume_ident_or_url`: identifier run; the exact text `url` followed
by `(` switches to URL-literal mode. -/
def cssConsumeIdentOrUrl (s : Str) (pos : Nat) : Res (CssToken × Nat) :=
  Res.bind (scanWhile identClass s (byteLen s + 1) pos) fun p1 =>
    Res.bind (ofSlice (sliceBytes s pos p1)) fun ident =>
      if ident = ("url".toList : Str) ∧ currentChar s p1 = some '(' then
        cssConsumeUrl s (advance s p1)
      else .ok (.Ident ident, p1)

/-- `is_number_start`: the next character is a digit or a dot. -/
def cssIsNumberStart (s : Str) (pos : Nat) : Bool :=
  match peekChar s pos 1 with
  | some n => n.isDigit || n = '.'
  | none => false

/-- The guard of the `.` match arm of `next_token`. -/
def cssDotNumber (s : Str) (pos : Nat) : Bool :=
  match peekChar s pos 1 with
  | some n => n.isDigit
  | none => false

/-- `CssTokenizer::next_token` (src/src/css/tokenizer.rs): one token, or
`none` at end of input, together with the new cursor. -/
def cssNextToken (s : Str) (pos : Nat) : Res (Option CssToken × Nat) :=
  if byteLen s ≤ pos then .ok (none, pos)
  else
    match currentChar s pos with
    | none => .ok (none, pos)
    | some c =>
        if c = ' ' ∨ c = '\t' ∨ c = '\n' ∨ c = '\r' then
          Res.bind (skipWsPos s pos) fun p => .ok (some .Whitespace, p)
        else if c = '/' ∧ peekChar s pos 1 = some '*' then
          Res.bind (cssConsumeComment s pos) fun r => .ok (some r.1, r.2)
        else if c = '\x7b' then .ok (some .LeftBrace, advance s pos)
        else if c = '\x7d' then .ok (some .RightBrace, advance s pos)
        else if c = '(' then .ok (some .LeftParen, advance s pos)
        else if c = ')' then .ok (some .RightParen, advance s pos)
        else if c = '[' then .ok (some .LeftBracket, advance s pos)
        else if c = ']' then .ok (some .RightBracket, advance s pos)
        else if c = ':' then .ok (some .Colon, advance s pos)
        else if c = ';' then .ok (some .Semicolon, advance s pos)
        else if c = ',' then .ok (some .Comma, advance s pos)
        else if c = '"' ∨ c = '\x27' then
          Res.bind (cssConsumeString s pos c) fun r => .ok (some r.1, r.2)
        else if c = '#' then Res.bind (cssConsumeHash s pos) fun r => .ok (some r.1, r.2)
        else if c = '@' then Res.bind (cssConsumeAt s pos) fun r => .ok (some r.1, r.2)
        else if c.isDigit then Res.bind (cssConsumeNumber s pos) fun r => .ok (some r.1, r.2)
        else if c = '.' ∧ cssDotNumber s pos then
          Res.bind (cssConsumeNumber s pos) fun r => .ok (some r.1, r.2)
        else if c = '-' ∧ cssIsNumberStart s pos then
          Res.bind (cssConsumeNumber s pos) fun r => .ok (some r.1, r.2)
        else if c.isAlpha ∨ c = '_' ∨ c = '-' then
          Res.bind (cssConsumeIdentOrUrl s pos) fun r => .ok (some r.1, r.2)
        else .ok (some (.Delim c), advance s pos)

/-- Collect the whole CSS token stream from position `pos` (the `Iterator`
instance of `CssTokenizer`, pulled to exhaustion). -/
def cssTokensFrom (s : Str) : Nat → Nat → Res (List CssToken)
  | 0, _ => .nofuel
  | fuel + 1, pos =>
      Res.bind (cssNextToken s pos) fun r =>
        match r.1 with
        | none => .ok []
        | some t => Res.bind (cssTokensFrom s fuel r.2) fun ts => .ok (t :: ts)

/-- The full CSS token stream of an input (each emitted token advances the
cursor by at least one, so `length + 1` pulls exhaust the input). -/
def cssTokens (s : Str) : Res (List CssToken) := cssTokensFrom s (List.length s + 1) 0

example : cssTokens ("div".toList) = .ok [.Ident ("div".toList)] := by decide

example : cssTokens ("a 1.5px;".toList) =
    .ok [.Ident ("a".toList), .Whitespace,
         .Dimension ("1.5".toList) ("px".toList), .Semicolon] := by decide

example : cssTokens ("#m 50% \x27s\x27".toList) =
    .ok [.Hash ("m".toList), .Whitespace, .Percentage ("50".toList),
         .Whitespace, .String ("s".toList)] := by decide

example : cssTokens ("url( a ) /*c*/".toList) =
    .ok [.Url ("a".toList), .Whitespace, .Comment ("c".toList)] := by decide

/-- HTML token (src/src/html/tokenizer.rs, `HtmlToken`). -/
inductive HtmlToken where
  | StartTag (name : Str) (attributes : List (Str × Str)) (selfClosing : Bool)
  | EndTag (name : Str)
  | Text (s : Str)
  | Comment (s : Str)
  | Doctype (s : Str)
deriving DecidableEq

/-- `parse_text`: consume up to the next `<` (no token at all if zero
characters were consumed). -/
def htmlParseText (s : Str) (pos : Nat) : Res (Option HtmlToken × Nat) :=
  Res.bind (scanWhile (fun c => !(c = '<' : Bool)) s (byteLen s + 1) pos) fun e =>
    if pos = e then .ok (none, e)
    else
      Res.bind (ofSlice (sliceBytes s pos e)) fun t => .ok (some (.Text t), e)

/-- `parse_comment`'s scan for the closing marker, checked only while
`position + 2 < input.len()` via the byte slice
`&input[position..position + 3]`. -/
def htmlCommentLoop (s : Str) : Nat → Nat → Nat → Res (Option HtmlToken × Nat)
  | 0, _, _ => .nofuel
  | fuel + 1, cs, pos =>
      if pos + 2 < byteLen s then
        Res.bind (ofSlice (sliceBytes s pos (pos + 3))) fun w =>
          if w = ("-->".toList : Str) then
            Res.bind (ofSlice (sliceBytes s cs pos)) fun content =>
              .ok (some (.Comment content), pos + 3)
          else htmlCommentLoop s fuel cs (advance s pos)
      else
        Res.bind (ofSlice (dropBytes s cs)) fun content =>
          .ok (some (.Comment content), byteLen s)

/-- `parse_comment`: `position += 3` past the marker, then scan. -/
def htmlParseComment (s : Str) (pos : Nat) : Res (Option HtmlToken × Nat) :=
  htmlCommentLoop s (byteLen s + 1) (pos + 3) (pos + 3)

/-- `parse_doctype`: raw content up to the next `>` (to end of input when
unterminated). -/
def htmlParseDoctype (s : Str) (pos : Nat) : Res (Option HtmlToken × Nat) :=
  Res.bind (scanWhile (fun c => !(c = '>' : Bool)) s (byteLen s + 1) pos) fun e =>
    match currentChar s e with
    | some _ =>
        Res.bind (ofSlice (sliceBytes s pos e)) fun content =>
          .ok (some (.Doctype content), advance s e)
    | none =>
        Res.bind (ofSlice (dropBytes s pos)) fun content =>
          .ok (some (.Doctype content), byteLen s)

/-- The unquoted attribute value of `parse_attribute`: up to whitespace,
`>`, or `/`. -/
def htmlUnquotedValue (s : Str) (pos : Nat) (name : Str) :
    Res (Option (Str × Str) × Nat) :=
  Res.bind (scanWhile (fun c => !(rustIsWhitespace c || c = '>' || c = '/')) s
      (byteLen s + 1) pos) fun e =>
    Res.bind (ofSlice (sliceBytes s pos e)) fun v => .ok (some (name, v), e)

/-- `parse_attribute`: identifier-class name (empty name yields no
attribute), optional `= value` with quoted or unquoted value; a name with
no `=` gets the empty value. -/
def htmlParseAttribute (s : Str) (pos : Nat) : Res (Option (Str × Str) × Nat) :=
  Res.bind (scanWhile identClass s (byteLen s + 1) pos) fun p1 =>
    if pos = p1 then .ok (none, p1)
    else
      Res.bind (ofSlice (sliceBytes s pos p1)) fun name =>
        Res.bind (skipWsPos s p1) fun p2 =>
          if currentChar s p2 = some '=' then
            Res.bind (skipWsPos s (advance s p2)) fun p3 =>
              match currentChar s p3 with
              | some q =>
                  if q = '"' ∨ q = '\x27' then
                    Res.bind (scanWhile (fun c => !(c = q : Bool)) s (byteLen s + 1)
                        (advance s p3)) fun e =>
                      match currentChar s e with
                      | some _ =>
                          Res.bind (ofSlice (sliceBytes s (advance s p3) e)) fun v =>
                            .ok (some (name, v), advance s e)
                      | none =>
                          Res.bind (ofSlice (sliceBytes s (advance s p3) e)) fun v =>
                            .ok (some (name, v), e)
                  else htmlUnquotedValue s p3 name
              | none => htmlUnquotedValue s p3 name
          else .ok (some (name, []), p2)

/-- The attribute loop of `parse_tag_or_comment`.  This is the one loop of
either tokenizer with no progress guarantee: when `parse_attribute` returns
no attribute and no `>`/`/` is current, the iteration leaves the cursor
unchanged, so the loop keeps its caller-supplied fuel. -/
def htmlAttrLoop (s : Str) : Nat → Nat → List (Str × Str) →
    Res (List (Str × Str) × Bool × Nat)
  | 0, _, _ => .nofuel
  | fuel + 1, pos, attrs =>
      Res.bind (skipWsPos s pos) fun pos =>
        match currentChar s pos with
        | some c =>
            if c = '>' then .ok (attrs, false, advance s pos)
            else if c = '/' then
              let p1 := advance s pos
              if currentChar s p1 = some '>' then .ok (attrs, true, advance s p1)
              else htmlAttrLoop s fuel p1 attrs
            else
              Res.bind (htmlParseAttribute s pos) fun r =>
                htmlAttrLoop s fuel r.2 (attrs ++ r.1.toList)
        | none => .ok (attrs, false, pos)

/-- `parse_tag_or_comment` (called with the cursor on `<`): comment,
doctype, end tag, start tag with attributes, or — when the tag name is
empty — a cursor reset to the `<` followed by `parse_text`. -/
def htmlParseTagOrComment (s : Str) (pos : Nat) (fuel : Nat) :
    Res (Option HtmlToken × Nat) :=
  let startPos := pos
  let p0 := advance s pos
  Res.bind (ofSlice (dropBytes s p0)) fun rest =>
    if List.isPrefixOf ("!--".toList : Str) rest then htmlParseComment s p0
    else if List.isPrefixOf ("!doctype".toList : Str) (List.map Char.toLower rest) then
      htmlParseDoctype s p0
    else
      let isEnd := currentChar s p0 = some '/'
      let p1 := if isEnd then advance s p0 else p0
      Res.bind (scanWhile identClass s (byteLen s + 1) p1) fun p2 =>
        if p1 = p2 then htmlParseText s startPos
        else
          Res.bind (ofSlice (sliceBytes s p1 p2)) fun name =>
            if isEnd then
              Res.bind (scanWhile (fun c => !(c = '>' : Bool)) s (byteLen s + 1)
                  p2) fun e =>
                match currentChar s e with
                | some _ => .ok (some (.EndTag name), advance s e)
                | none => .ok (some (.EndTag name), e)
            else
              Res.bind (htmlAttrLoop s fuel p2 []) fun r =>
                .ok (some (.StartTag name r.1 r.2.1), r.2.2)

/-- `HtmlTokenizer::next_token`: skip leading whitespace, then dispatch on
`<`. -/
def htmlNextToken (s : Str) (pos : Nat) (fuel : Nat) : Res (Option HtmlToken × Nat) :=
  Res.bind (skipWsPos s pos) fun pos =>
    if byteLen s ≤ pos then .ok (none, pos)
    else
      match currentChar s pos with
      | none => .ok (none, pos)
      | some c =>
          if c = '<' then htmlParseTagOrComment s pos fuel
          else htmlParseText s pos

/-- Collect the whole HTML token stream from position 0 (the `Iterator`
instance of `HtmlTokenizer`, pulled to exhaustion); `fuel` is the attribute
loop fuel of each pull. -/
def htmlTokensFrom (s : Str) (fuel : Nat) : Nat → Nat → Res (List HtmlToken)
  | 0, _ => .nofuel
  | n + 1, pos =>
      Res.bind (htmlNextToken s pos fuel) fun r =>
        match r.1 with
        | none => .ok []
        | some t => Res.bind (htmlTokensFrom s fuel n r.2) fun ts => .ok (t :: ts)

/-- The full HTML token stream of an input. -/
def htmlTokens (s : Str) (fuel : Nat) : Res (List HtmlToken) :=
  htmlTokensFrom s fuel (List.length s + 1) 0

example : htmlTokens ("<br/>".toList) 9 =
    .ok [.StartTag ("br".toList) [] true] := by decide

example : htmlTokens ("<div class=\"c\">Hi</div>".toList) 30 =
    .ok [.StartTag ("div".toList) [(("class".toList), ("c".toList))] false,
         .Text ("Hi".toList), .EndTag ("div".toList)] := by decide

example : htmlTokens ("<!-- c --><!DOCTYPE html>".toList) 30 =
    .ok [.Comment (" c ".toList), .Doctype ("!DOCTYPE html".toList)] := by decide

example : htmlTokens ("<?x".toList) 9 = .ok [] := by decide

/-- Exponent suffix accepted by Rust `f64::from_str` after the mantissa:
empty, or `e`/`E`, an optional sign, and at least one digit. -/
def rustF64ExpOk (s : Str) : Bool :=
  match s with
  | [] => true
  | e :: r =>
      if e = 'e' ∨ e = 'E' then
        let r2 := match r with
                  | c :: r1 => if c = '+' ∨ c = '-' then r1 else r
                  | [] => r
        !(List.isEmpty r2) && List.all r2 Char.isDigit
      else false

/-- Models the success of Rust `str::parse::<f64>` (its documented grammar:
optional sign, then `inf`/`infinity`/`nan` case-insensitively or a decimal
mantissa with at least one digit and an optional well-formed exponent). -/
def rustF64ParseOk (s : Str) : Bool :=
  let t := match s with
           | c :: r => if c = '+' ∨ c = '-' then r else s
           | [] => s
  let low := List.map Char.toLower t
  if low = ("inf".toList : Str) ∨ low = ("infinity".toList : Str) ∨
      low = ("nan".toList : Str) then true
  else
    let d1 := List.takeWhile Char.isDigit t
    let r1 := List.dropWhile Char.isDigit t
    match r1 with
    | [] => !(List.isEmpty d1)
    | c :: r2 =>
        if c = '.' then
          let d2 := List.takeWhile Char.isDigit r2
          let r3 := List.dropWhile Char.isDigit r2
          (!(List.isEmpty d1) || !(List.isEmpty d2)) && rustF64ExpOk r3
        else !(List.isEmpty d1) && rustF64ExpOk r1

/-- Drop leading `0` digits. -/
def dropZerosLeft (s : Str) : Str := List.dropWhile (fun c => c = '0') s

/-- Drop trailing `0` digits. -/
def dropZerosRight (s : Str) : Str :=
  List.reverse (List.dropWhile (fun c => c = '0') (List.reverse s))

/-- Models `Display ∘ str::parse::<f64> ∘ unwrap_or(0.0)` on the numeric
literals this tokenizer consumes (sign, digits, at most one dot): the
canonical shortest decimal.  A failed parse is the `unwrap_or(0.0)`
fallback, displayed as `0`.  Exact for literals of at most 15 significant
digits (binary64 shortest-round-trip); every literal evaluated concretely
in this file is far shorter. -/
def rustF64Display (s : Str) : Str :=
  if !(rustF64ParseOk s) then ("0".toList : Str)
  else
    let neg : Bool := match s with
                      | c :: _ => c = '-'
                      | [] => false
    let t := match s with
             | c :: r => if c = '+' ∨ c = '-' then r else s
             | [] => s
    let d1 := List.takeWhile Char.isDigit t
    let r1 := List.dropWhile Char.isDigit t
    let d2 := match r1 with
              | c :: r2 => if c = '.' then List.takeWhile Char.isDigit r2 else []
              | [] => []
    let ip := dropZerosLeft d1
    let fp := dropZerosRight d2
    let ipc : Str := if List.isEmpty ip then ("0".toList : Str) else ip
    let core : Str := if List.isEmpty fp then ipc else ipc ++ '.' :: fp
    if neg then '-' :: core else core

example : rustF64Display ("10.0".toList) = ("10".toList) := by decide
example : rustF64Display (".5".toList) = ("0.5".toList) := by decide
example : rustF64Display ("-.".toList) = ("0".toList) := by decide
example : rustF64Display ("-0.50".toList) = ("-0.5".toList) := by decide
example : rustF64ParseOk ("-.".toList) = false := by decide
example : rustF64ParseOk ("5.".toList) = true := by decide

/-- Selector tree (src/src/css/parser.rs, `Selector`). -/
inductive Selector where
  | Type (name : Str)
  | Class (name : Str)
  | Id (name : Str)
  | Universal
  | Descendant (left right : Selector)
  | Child (left right : Selector)
  | Adjacent (left right : Selector)
  | GeneralSibling (left right : Selector)
deriving DecidableEq

/-- A style rule (src/src/css/parser.rs, `Rule`); the declaration
`HashMap<String, String>` is modelled as an association list with unique
keys in first-insertion order. -/
structure Rule where
  selectors : List Selector
  declarations : List (Str × Str)
deriving DecidableEq

/-- Models `HashMap::insert` on the association-list representation:
overwrite the value of an existing key in place, otherwise append. -/
def insertAssoc (m : List (Str × Str)) (k v : Str) : List (Str × Str) :=
  if List.any m (fun p => p.1 = k) then
    List.map (fun p => if p.1 = k then (k, v) else p) m
  else m ++ [(k, v)]

/-- `CssParser::token_to_string`: the textual rendering of a value token
(strings re-quoted with double quotes, numeric values re-rendered through
`f64` Display, every non-listed token the empty string). -/
def tokenToString : CssToken → Str
  | .Ident s => s
  | .String s => '"' :: s ++ ['"']
  | .Number lit => rustF64Display lit
  | .Dimension lit u => rustF64Display lit ++ u
  | .Percentage lit => rustF64Display lit ++ ['%']
  | .Hash h => '#' :: h
  | .Delim c => [c]
  | .Url u => ("url(".toList : Str) ++ u ++ [')']
  | _ => []

/-!
The CSS parser holds a `CssTokenizer` plus one token of lookahead
(`current_token`), and `advance` refills the lookahead from the tokenizer,
whose `next_token` depends only on the input and the cursor.  The parser
therefore sees exactly the token stream `cssTokens input`, and is embedded
as a function on the remaining token list: `current_token` is the head and
`advance` is `tail`.  Functions that Rust lets fail *after* consuming
tokens return the advanced remainder alongside `none`.
-/

/-- `CssParser::skip_whitespace`: drop whitespace and comment tokens. -/
def pSkipWs : List CssToken → List CssToken
  | .Whitespace :: ts => pSkipWs ts
  | .Comment _ :: ts => pSkipWs ts
  | ts => ts

/-- `parse_simple_selector`.  Note the `.` arm consumes the dot before
looking for the class identifier, so a failed class selector still
advances past the `.`. -/
def parseSimpleSelector : List CssToken → Option Selector × List CssToken
  | .Ident name :: ts => (some (.Type name), ts)
  | .Hash id :: ts => (some (.Id id), ts)
  | .Delim '.' :: ts =>
      match ts with
      | .Ident cls :: ts1 => (some (.Class cls), ts1)
      | _ => (none, ts)
  | .Delim '*' :: ts => (some .Universal, ts)
  | ts => (none, ts)

/-- The combinator loop of `parse_selector`: `>`/`+`/`~` combine with the
next simple selector (a missing right operand silently drops the
combinator), any other non-terminator token attempts a `Descendant`
combination, and `{`, `,` or end of stream terminates. -/
def parseSelectorLoop : Nat → Selector → List CssToken →
    Res (Selector × List CssToken)
  | 0, _, _ => .nofuel
  | fuel + 1, sel, ts =>
      let ts := pSkipWs ts
      match ts with
      | [] => .ok (sel, [])
      | .LeftBrace :: _ => .ok (sel, ts)
      | .Comma :: _ => .ok (sel, ts)
      | .Delim '>' :: rest =>
          let rest := pSkipWs rest
          match parseSimpleSelector rest with
          | (some right, rest1) => parseSelectorLoop fuel (.Child sel right) rest1
          | (none, rest1) => parseSelectorLoop fuel sel rest1
      | .Delim '+' :: rest =>
          let rest := pSkipWs rest
          match parseSimpleSelector rest with
          | (some right, rest1) => parseSelectorLoop fuel (.Adjacent sel right) rest1
          | (none, rest1) => parseSelectorLoop fuel sel rest1
      | .Delim '~' :: rest =>
          let rest := pSkipWs rest
          match parseSimpleSelector rest with
          | (some right, rest1) =>
              parseSelectorLoop fuel (.GeneralSibling sel right) rest1
          | (none, rest1) => parseSelectorLoop fuel sel rest1
      | _ =>
          match parseSimpleSelector ts with
          | (some right, ts1) => parseSelectorLoop fuel (.Descendant sel right) ts1
          | (none, ts1) => .ok (sel, ts1)

/-- `parse_selector`: one simple selector, then the combinator loop. -/
def parseSelector (fuel : Nat) (ts : List CssToken) :
    Res (Option Selector × List CssToken) :=
  let ts := pSkipWs ts
  match parseSimpleSelector ts with
  | (none, ts1) => .ok (none, ts1)
  | (some sel, ts1) =>
      Res.bind (parseSelectorLoop fuel sel ts1) fun r => .ok (some r.1, r.2)

/-- The loop of `parse_selectors`: selectors separated by `,`. -/
def parseSelectorsLoop : Nat → List Selector → List CssToken →
    Res (List Selector × List CssToken)
  | 0, _, _ => .nofuel
  | fuel + 1, acc, ts =>
      let ts := pSkipWs ts
      Res.bind (parseSelector fuel ts) fun r =>
        match r.1 with
        | none => .ok (acc, r.2)
        | some sel =>
            let acc := acc ++ [sel]
            let ts1 := pSkipWs r.2
            match ts1 with
            | .Comma :: ts2 => parseSelectorsLoop fuel acc ts2
            | _ => .ok (acc, ts1)

/-- `parse_selectors`: `none` when zero selectors were recognised. -/
def parseSelectors (fuel : Nat) (ts : List CssToken) :
    Res (Option (List Selector) × List CssToken) :=
  Res.bind (parseSelectorsLoop fuel [] ts) fun r =>
    .ok (if List.isEmpty r.1 then none else some r.1, r.2)

/-- The value loop of `parse_declaration`: collect rendered token parts
until `;`, `}` or end of stream; a whitespace token pushes one space
unless no part has been collected yet. -/
def declValueLoop : List CssToken → List Str → List Str × List CssToken
  | ts@(.Semicolon :: _), parts => (parts, ts)
  | ts@(.RightBrace :: _), parts => (parts, ts)
  | [], parts => (parts, [])
  | .Whitespace :: ts, parts =>
      declValueLoop ts (if List.isEmpty parts then parts else parts ++ [[' ']])
  | t :: ts, parts => declValueLoop ts (parts ++ [tokenToString t])

/-- `parse_declaration`: property identifier, `:`, then the value loop;
the value is the joined parts, trimmed.  An empty parts list means no
declaration. -/
def parseDeclaration (ts : List CssToken) : Option (Str × Str) × List CssToken :=
  match ts with
  | .Ident name :: ts1 =>
      let ts2 := pSkipWs ts1
      match ts2 with
      | .Colon :: ts3 =>
          let ts4 := pSkipWs ts3
          let r := declValueLoop ts4 []
          if List.isEmpty r.1 then (none, r.2)
          else (some (name, rustTrim (List.flatten r.1)), r.2)
      | _ => (none, ts2)
  | _ => (none, ts)

/-- The loop of `parse_declarations`: until `}` or end of stream, attempt
one declaration (inserting into the map) and consume an optional `;`.
A failed `parse_declaration` that consumed nothing leaves the stream
unchanged; the loop then spins, so it keeps a caller-supplied fuel. -/
def parseDeclarationsLoop : Nat → List (Str × Str) → List CssToken →
    Res (List (Str × Str) × List CssToken)
  | 0, _, _ => .nofuel
  | fuel + 1, decls, ts =>
      let ts := pSkipWs ts
      match ts with
      | [] => .ok (decls, [])
      | .RightBrace :: _ => .ok (decls, ts)
      | _ =>
          let r := parseDeclaration ts
          let decls := match r.1 with
                       | some pv => insertAssoc decls pv.1 pv.2
                       | none => decls
          match r.2 with
          | .Semicolon :: ts1 => parseDeclarationsLoop fuel decls ts1
          | ts1 => parseDeclarationsLoop fuel decls ts1

/-- `parse_declarations`. -/
def parseDeclarations (fuel : Nat) (ts : List CssToken) :
    Res (List (Str × Str) × List CssToken) :=
  parseDeclarationsLoop fuel [] ts

/-- `parse_rule`: selectors, `{`, declarations, optional `}`. -/
def parseRule (fuel : Nat) (ts : List CssToken) : Res (Option Rule × List CssToken) :=
  Res.bind (parseSelectors fuel ts) fun r =>
    match r.1 with
    | none => .ok (none, r.2)
    | some sels =>
        let ts1 := pSkipWs r.2
        match ts1 with
        | .LeftBrace :: ts2 =>
            Res.bind (parseDeclarations fuel ts2) fun d =>
              let ts3 := match d.2 with
                         | .RightBrace :: ts4 => ts4
                         | ts4 => ts4
              .ok (some ⟨sels, d.1⟩, ts3)
        | _ => .ok (none, ts1)

/-- The loop of `CssParser::parse`: while tokens remain, skip whitespace
and attempt a rule; a failed rule advances one token (resynchronization). -/
def parseRulesLoop : Nat → List Rule → List CssToken → Res (List Rule)
  | 0, _, _ => .nofuel
  | fuel + 1, acc, ts =>
      match ts with
      | [] => .ok acc
      | _ =>
          let ts := pSkipWs ts
          Res.bind (parseRule fuel ts) fun r =>
            match r.1 with
            | some rule => parseRulesLoop fuel (acc ++ [rule]) r.2
            | none => parseRulesLoop fuel acc (List.tail r.2)

/-- `CssParser::parse`: tokenize, then run the rule loop. -/
def cssParse (s : Str) (fuel : Nat) : Res (List Rule) :=
  Res.bind (cssTokens s) fun ts => parseRulesLoop fuel [] ts

example : cssParse ("div \x7b color: red; \x7d".toList) 30 =
    .ok [⟨[.Type ("div".toList)], [(("color".toList), ("red".toList))]⟩] := by decide

example : cssParse (".container \x7b width: 100%; \x7d".toList) 30 =
    .ok [⟨[.Class ("container".toList)],
          [(("width".toList), ("100%".toList))]⟩] := by decide

example : cssParse ("div > p \x7b margin: 10px; \x7d".toList) 30 =
    .ok [⟨[.Child (.Type ("div".toList)) (.Type ("p".toList))],
          [(("margin".toList), ("10px".toList))]⟩] := by decide

/-- Document tree node (src/src/html/parser.rs, `Node`/`Element`); the
attribute `HashMap` is modelled as an association list with unique keys in
first-insertion order. -/
inductive Node where
  | element (tagName : Str) (attributes : List (Str × Str)) (children : List Node)
  | text (s : Str)
  | comment (s : Str)

/-- `attributes.iter().collect::<HashMap<_, _>>()`: fold the duplicate-
preserving token attribute list into the map (last occurrence wins). -/
def collectAttrs (attrs : List (Str × Str)) : List (Str × Str) :=
  List.foldl (fun m p => insertAssoc m p.1 p.2) [] attrs

/-- `HtmlParser::is_void_element` (case-insensitive membership in the fixed
void-element set). -/
def isVoidElement (name : Str) : Bool :=
  let n := List.map Char.toLower name
  n = ("area".toList : Str) || n = ("base".toList : Str) || n = ("br".toList : Str) ||
  n = ("col".toList : Str) || n = ("embed".toList : Str) || n = ("hr".toList : Str) ||
  n = ("img".toList : Str) || n = ("input".toList : Str) || n = ("link".toList : Str) ||
  n = ("meta".toList : Str) || n = ("param".toList : Str) ||
  n = ("source".toList : Str) || n = ("track".toList : Str) || n = ("wbr".toList : Str)

/-!
Like the CSS parser, `HtmlParser` holds one token of lookahead over its
tokenizer and is embedded over the token list (`current_token` = head,
`advance` = tail).  `parse_element` is split into its child loop
(`htmlChildLoop`, the `while let` over children) and a thin wrapper
(`parseElement`).  The recursive `parse_element` call that Rust makes for a
nested start tag appears in the child loop's start-tag arm with the
non-recursive prologue of `parse_element` (advance past the tag; return
immediately when self-closing or void) inlined, which is exactly how the
call unfolds in Rust. -/

/-- The child loop of `parse_element`: a matching end tag closes the
element; a non-matching end tag is appended as the literal text
`</name>`; a start tag recurses; text (unless whitespace-only) and
comments append; doctypes are skipped; end of stream closes silently. -/
def htmlChildLoop : Nat → Str → List (Str × Str) → List Node → List HtmlToken →
    Res (Node × List HtmlToken)
  | 0, _, _, _, _ => .nofuel
  | fuel + 1, name, attrs, children, ts =>
      match ts with
      | [] => .ok (.element name attrs children, [])
      | .EndTag endName :: ts1 =>
          if endName = name then .ok (.element name attrs children, ts1)
          else
            htmlChildLoop fuel name attrs
              (children ++ [.text (('<' :: '/' :: endName) ++ ['>'])]) ts1
      | .StartTag cname cattrs csc :: ts1 =>
          if csc || isVoidElement cname then
            htmlChildLoop fuel name attrs
              (children ++ [.element cname (collectAttrs cattrs) []]) ts1
          else
            Res.bind (htmlChildLoop fuel cname (collectAttrs cattrs) [] ts1) fun r =>
              htmlChildLoop fuel name attrs (children ++ [r.1]) r.2
      | .Text t :: ts1 =>
          if List.isEmpty (rustTrim t) then htmlChildLoop fuel name attrs children ts1
          else htmlChildLoop fuel name attrs (children ++ [.text t]) ts1
      | .Comment c :: ts1 =>
          htmlChildLoop fuel name attrs (children ++ [.comment c]) ts1
      | .Doctype _ :: ts1 => htmlChildLoop fuel name attrs children ts1

/-- `parse_element` (entered with the start tag at the head of the
stream): advance past the tag, then either return a childless element
(self-closing or void) or run the child loop. -/
def parseElement (fuel : Nat) (name : Str) (attrs : List (Str × Str))
    (selfClosing : Bool) (ts : List HtmlToken) : Res (Node × List HtmlToken) :=
  let ts1 := List.tail ts
  if selfClosing || isVoidElement name then
    .ok (.element name (collectAttrs attrs) [], ts1)
  else htmlChildLoop fuel name (collectAttrs attrs) [] ts1

/-- The loop of `HtmlParser::parse`: top-level dispatch; a bare end tag at
the root terminates parsing. -/
def parseNodesLoop : Nat → List Node → List HtmlToken → Res (List Node)
  | 0, _, _ => .nofuel
  | fuel + 1, acc, ts =>
      match ts with
      | [] => .ok acc
      | .StartTag name attrs sc :: _ =>
          Res.bind (parseElement fuel name attrs sc ts) fun r =>
            parseNodesLoop fuel (acc ++ [r.1]) r.2
      | .Text t :: ts1 =>
          if List.isEmpty (rustTrim t) then parseNodesLoop fuel acc ts1
          else parseNodesLoop fuel (acc ++ [.text t]) ts1
      | .Comment c :: ts1 => parseNodesLoop fuel (acc ++ [.comment c]) ts1
      | .Doctype _ :: ts1 => parseNodesLoop fuel acc ts1
      | .EndTag _ :: _ => .ok acc

/-- `HtmlParser::parse`: tokenize, then run the node loop. -/
def htmlParse (s : Str) (fuel : Nat) : Res (List Node) :=
  Res.bind (htmlTokens s fuel) fun ts => parseNodesLoop fuel [] ts

example : htmlParse ("<div class=\"c\"><p>Hi</p></div>".toList) 40 =
    .ok [.element ("div".toList) [(("class".toList), ("c".toList))]
          [.element ("p".toList) [] [.text ("Hi".toList)]]] := by rfl

example : htmlParse ("<img src=\"a.png\">more text".toList) 40 =
    .ok [.element ("img".toList) [(("src".toList), ("a.png".toList))] [],
         .text ("more text".toList)] := by rfl

/-- Helper for propagation of `.nofuel` through `Res.bind`. -/
theorem bind_nofuel {α β : Type} {x : Res α} {k : α → Res β} (h : x = .nofuel) :
    Res.bind x k = .nofuel := by rw [h]; rfl

/-- Inversion of a successful `Res.bind`. -/
theorem bind_eq_ok {α β : Type} {x : Res α} {k : α → Res β} {b : β}
    (h : Res.bind x k = .ok b) : ∃ a, x = .ok a ∧ k a = .ok b := by
  cases x with
  | ok a => exact ⟨a, rfl, h⟩
  | crash => exact absurd h (by intro hh; cases hh)
  | nofuel => exact absurd h (by intro hh; cases hh)

/-- A constructor-kind tag for CSS tokens, to state that two tokens are or
are not of the same kind. -/
def cssKindOf : CssToken → Nat
  | .Ident _ => 0
  | .String _ => 1
  | .Number _ => 2
  | .Dimension _ _ => 3
  | .Percentage _ => 4
  | .Hash _ => 5
  | .Delim _ => 6
  | .LeftParen => 7
  | .RightParen => 8
  | .LeftBrace => 9
  | .RightBrace => 10
  | .LeftBracket => 11
  | .RightBracket => 12
  | .Colon => 13
  | .Semicolon => 14
  | .Comma => 15
  | .Whitespace => 16
  | .Comment _ => 17
  | .AtKeyword _ => 18
  | .Url _ => 19

/-- C1: the claim says every byte slice the tokenizers take is at a valid
position for arbitrary (including multi-byte UTF-8) input and no panic
occurs.  The code uses one cursor both as a character count and as a byte
offset, so on the two-byte character é the CSS string slice
`&input[1..2]` and the HTML comment slice `&input[pos..pos + 3]` fall
inside a character: both tokenizers panic.  This theorem evaluates the
model at those failing inputs. -/
theorem spec_c1_utf8_panic :
    cssNextToken ("\x27é\x27".toList) 0 = .crash ∧
    htmlNextToken ("<!--é-->".toList) 0 9 = .crash := by
  exact ⟨by decide, by decide⟩

/-- C3: the claim (and the code comment) says an invalid `<...` span is
reinterpreted as literal text.  The code does reset the cursor to the `<`,
but `parse_text` stops at `<` immediately, consumes zero characters and
returns `None`, so `next_token` ends the token stream and the span is
dropped: on `"<?x"` the very first pull yields no token with the cursor
back at 0, the token stream is empty, and the parse result is empty. -/
theorem spec_c3_invalid_tag_dropped :
    htmlNextToken ("<?x".toList) 0 9 = .ok (none, 0) ∧
    htmlTokens ("<?x".toList) 9 = .ok [] ∧
    htmlParse ("<?x".toList) 9 = .ok [] := by
  exact ⟨by decide, by decide, by rfl⟩

/-- The CSS declarations loop makes no progress when `parse_declaration`
fails without consuming (here: on a `Number` token where a property
identifier is expected): every fuel is exhausted, i.e. the Rust loop never
terminates. -/
theorem css_decl_loop_stuck (f : Nat) (d : List (Str × Str)) :
    parseDeclarationsLoop f d
      [.Number ['5'], .Whitespace, .RightBrace] = .nofuel := by
  induction f generalizing d with
  | zero => rfl
  | succ f ih => exact ih d

/-- The HTML start-tag attribute loop makes no progress when
`parse_attribute` returns no attribute (here: on `@`): every fuel is
exhausted, i.e. the Rust loop never terminates. -/
theorem html_attr_loop_stuck (f : Nat) :
    htmlAttrLoop ("<div @>".toList) f 5 [] = .nofuel := by
  induction f with
  | zero => rfl
  | succ f ih => exact ih

/-- On `"<div @>"` the first `next_token` pull never returns, whatever the
fuel. -/
theorem html_next_token_stuck (f : Nat) :
    htmlNextToken ("<div @>".toList) 0 f = .nofuel := by
  match f with
  | 0 => rfl
  | f + 1 =>
      show Res.bind (htmlAttrLoop ("<div @>".toList) f 5 [])
        (fun r => Res.ok (some (HtmlToken.StartTag ("div".toList) r.1 r.2.1), r.2.2)) =
          Res.nofuel
      exact bind_nofuel (html_attr_loop_stuck f)

/-- C2: the claim says every input terminates normally with a result and
every parser loop makes progress, naming the start-tag attribute loop on
`"<div @>"`.  In fact that very loop never advances past the `@` (and the
CSS declarations loop likewise spins on `"div { 5 }"`): for every fuel the
model reports fuel exhaustion, i.e. the Rust code loops forever. -/
theorem spec_c2_infinite_loops :
    (∀ fuel : Nat, htmlNextToken ("<div @>".toList) 0 fuel = .nofuel) ∧
    (∀ fuel : Nat, htmlParse ("<div @>".toList) fuel = .nofuel) ∧
    (∀ fuel : Nat, cssParse ("div \x7b 5 \x7d".toList) fuel = .nofuel) := by
  refine ⟨html_next_token_stuck, ?_, ?_⟩
  · intro fuel
    simp only [htmlParse, htmlTokens, htmlTokensFrom, html_next_token_stuck, Res.bind]
  · intro fuel
    have ht : cssTokens ("div \x7b 5 \x7d".toList) =
        .ok [.Ident ("div".toList), .Whitespace, .LeftBrace, .Whitespace,
             .Number ("5".toList), .Whitespace, .RightBrace] := by decide
    match fuel with
    | 0 => decide
    | 1 => decide
    | 2 => decide
    | f + 3 =>
        have h2 : parseRulesLoop (f + 3) []
            [.Ident ("div".toList), .Whitespace, .LeftBrace, .Whitespace,
             .Number ("5".toList), .Whitespace, .RightBrace] = .nofuel := by
          simp [parseRulesLoop, pSkipWs, parseRule, parseSelectors,
            parseSelectorsLoop, parseSelector, parseSelectorLoop,
            parseSimpleSelector, parseDeclarations, parseDeclarationsLoop,
            parseDeclaration, css_decl_loop_stuck, Res.bind]
        exact h2

/-- C2 witness: the theorem applied at a concrete fuel. -/
theorem spec_c2_witness :
    htmlParse ("<div @>".toList) 7 = .nofuel ∧
    cssParse ("div \x7b 5 \x7d".toList) 7 = .nofuel :=
  ⟨spec_c2_infinite_loops.2.1 7, spec_c2_infinite_loops.2.2 7⟩

/-- C6: combinators are built left-associatively in the order encountered:
`div p > span` parses as `Child(Descendant(div, p), span)`, and the full
parse of `div > p { margin: 10px; }` yields exactly one rule whose sole
selector is `Child(Type("div"), Type("p"))`. -/
theorem spec_c6_left_assoc_combinators :
    Res.bind (cssTokens ("div p > span".toList)) (fun ts => parseSelector 30 ts) =
      .ok (some (.Child (.Descendant (.Type ("div".toList)) (.Type ("p".toList)))
        (.Type ("span".toList))), []) ∧
    cssParse ("div > p \x7b margin: 10px; \x7d".toList) 30 =
      .ok [⟨[.Child (.Type ("div".toList)) (.Type ("p".toList))],
            [(("margin".toList), ("10px".toList))]⟩] := by
  exact ⟨by decide, by decide⟩

/-- C8: while an element is being built, an end tag whose name does not
match the open element exactly is consumed and appended to the children as
the literal text node `</name>`, and parsing continues (first conjunct,
the exact step of the child loop); in particular parsing
`<div><span>x</div>` puts the text node `</div>` among the children of the
`span` element (second conjunct). -/
theorem spec_c8_mismatched_end_tag :
    (∀ (fuel : Nat) (name endName : Str) (attrs : List (Str × Str))
        (children : List Node) (ts : List HtmlToken), endName ≠ name →
        htmlChildLoop (fuel + 1) name attrs children (.EndTag endName :: ts) =
          htmlChildLoop fuel name attrs
            (children ++ [.text (('<' :: '/' :: endName) ++ ['>'])]) ts) ∧
    htmlParse ("<div><span>x</div>".toList) 40 =
      .ok [.element ("div".toList) []
            [.element ("span".toList) []
              [.text ("x".toList), .text ("</div>".toList)]]] := by
  constructor
  · intro fuel name endName attrs children ts h
    simp [htmlChildLoop, h]
  · rfl

/-- C8 witness: the step applied to a mismatched end tag `</a>` inside an
open element `b`, plus the concrete parse. -/
theorem spec_c8_witness :
    ("a".toList : Str) ≠ ("b".toList : Str) ∧
    htmlChildLoop 4 ("b".toList) [] [] [.EndTag ("a".toList)] =
      htmlChildLoop 3 ("b".toList) [] [.text ("</a>".toList)] [] :=
  ⟨by decide, spec_c8_mismatched_end_tag.1 3 ("b".toList) ("a".toList) [] []
    [] (by decide)⟩

/-- C10: a combinator delimiter token (`>`, `+`, or `~`) that is not
followed by a parseable simple selector is consumed and silently
discarded, leaving the selector built so far unchanged (first conjunct,
the exact step of the selector loop for each of the three delimiters); in
particular each of `div > { color: red; }`, `div + { color: red; }` and
`div ~ { color: red; }` parses to one rule whose sole selector is
`Type("div")` (remaining conjuncts). -/
theorem spec_c10_dangling_combinator :
    (∀ (fuel : Nat) (c : Char) (sel : Selector) (ts rest : List CssToken),
        c = '>' ∨ c = '+' ∨ c = '~' →
        pSkipWs ts = .Delim c :: rest →
        (parseSimpleSelector (pSkipWs rest)).1 = none →
        parseSelectorLoop (fuel + 1) sel ts =
          parseSelectorLoop fuel sel (parseSimpleSelector (pSkipWs rest)).2) ∧
    cssParse ("div > \x7b color: red; \x7d".toList) 30 =
      .ok [⟨[.Type ("div".toList)], [(("color".toList), ("red".toList))]⟩] ∧
    cssParse ("div + \x7b color: red; \x7d".toList) 30 =
      .ok [⟨[.Type ("div".toList)], [(("color".toList), ("red".toList))]⟩] ∧
    cssParse ("div ~ \x7b color: red; \x7d".toList) 30 =
      .ok [⟨[.Type ("div".toList)], [(("color".toList), ("red".toList))]⟩] := by
  refine ⟨?_, by decide, by decide, by decide⟩
  intro fuel c sel ts rest hc h1 h2
  rcases hps : parseSimpleSelector (pSkipWs rest) with ⟨o, rest1⟩
  rw [hps] at h2
  simp at h2
  subst h2
  rcases hc with rfl | rfl | rfl <;> simp [parseSelectorLoop, h1, hps]

/-- C10 witness: the step applied with each of the three combinator
delimiters followed directly by an opening brace, plus evaluation of both
sides. -/
theorem spec_c10_witness :
    (pSkipWs [CssToken.Delim '>', CssToken.LeftBrace] =
        CssToken.Delim '>' :: [CssToken.LeftBrace] ∧
      (parseSimpleSelector (pSkipWs [CssToken.LeftBrace])).1 = none) ∧
    parseSelectorLoop 4 (.Type ("div".toList))
        [CssToken.Delim '>', CssToken.LeftBrace] =
      parseSelectorLoop 3 (.Type ("div".toList))
        (parseSimpleSelector (pSkipWs [CssToken.LeftBrace])).2 ∧
    parseSelectorLoop 4 (.Type ("div".toList))
        [CssToken.Delim '+', CssToken.LeftBrace] =
      parseSelectorLoop 3 (.Type ("div".toList))
        (parseSimpleSelector (pSkipWs [CssToken.LeftBrace])).2 ∧
    parseSelectorLoop 4 (.Type ("div".toList))
        [CssToken.Delim '~', CssToken.LeftBrace] =
      parseSelectorLoop 3 (.Type ("div".toList))
        (parseSimpleSelector (pSkipWs [CssToken.LeftBrace])).2 :=
  ⟨⟨by decide, by decide⟩,
    spec_c10_dangling_combinator.1 3 '>' (.Type ("div".toList))
      [CssToken.Delim '>', CssToken.LeftBrace] [CssToken.LeftBrace]
      (Or.inl rfl) (by decide) (by decide),
    spec_c10_dangling_combinator.1 3 '+' (.Type ("div".toList))
      [CssToken.Delim '+', CssToken.LeftBrace] [CssToken.LeftBrace]
      (Or.inr (Or.inl rfl)) (by decide) (by decide),
    spec_c10_dangling_combinator.1 3 '~' (.Type ("div".toList))
      [CssToken.Delim '~', CssToken.LeftBrace] [CssToken.LeftBrace]
      (Or.inr (Or.inr rfl)) (by decide) (by decide)⟩

/-- C4 counterexample: the claim says every declaration value is the
verbatim reconstruction of the value tokens as they appeared in the input.
For `div { content: 'a'; }` the value token appears in the input as the
single-quoted span, but `token_to_string` re-wraps string tokens in double
quotes, so the stored value is the double-quoted text, which differs from
the verbatim span. -/
theorem spec_c4_counterexample :
    cssParse ("div \x7b content: \x27a\x27; \x7d".toList) 30 =
      .ok [⟨[.Type ("div".toList)],
            [(("content".toList), ("\"a\"".toList))]⟩] ∧
    ("\"a\"".toList : Str) ≠ ("\x27a\x27".toList : Str) := by
  exact ⟨by decide, by decide⟩

/-- C5 counterexample: `-` immediately followed by `.` is a number start
by the claim's own definition, yet the consumed text `-.` fails
`str::parse::<f64>`, so the 0.0 fallback is used (and rendered as `0` by
`token_to_string`). -/
theorem spec_c5_counterexample :
    cssNextToken ("-.".toList) 0 = .ok (some (.Number ("-.".toList)), 2) ∧
    rustF64ParseOk ("-.".toList) = false ∧
    rustF64Display ("-.".toList) = ("0".toList) := by
  exact ⟨by decide, by decide, by decide⟩

/-- C9 counterexample: a CSS string token reports as its content the text
between the quotes; re-tokenizing that content yields an identifier token,
not a string token, so tokenizing the reported content does not reproduce
a token of the same kind. -/
theorem spec_c9_counterexample :
    cssNextToken ("\x27a\x27".toList) 0 = .ok (some (.String ("a".toList)), 3) ∧
    cssNextToken ("a".toList) 0 = .ok (some (.Ident ("a".toList)), 1) ∧
    cssKindOf (.String ("a".toList)) ≠ cssKindOf (.Ident ("a".toList)) := by
  exact ⟨by decide, by decide, by decide⟩

/-- `parse_selectors` returns `some` only for a non-empty selector list. -/
theorem parseSelectors_some_ne_nil {f : Nat} {ts ts' : List CssToken}
    {sels : List Selector} (h : parseSelectors f ts = .ok (some sels, ts')) :
    sels ≠ [] := by
  obtain ⟨r, hr, hG⟩ := bind_eq_ok h
  by_cases he : List.isEmpty r.1
  · simp [he] at hG
  · simp [he] at hG
    cases hG.1
    exact List.isEmpty_eq_false.mp (by simpa using he)

/-- `parse_rule` builds every rule it returns from a `some` result of
`parse_selectors`, so its selector list is non-empty. -/
theorem parseRule_selectors_ne_nil {f : Nat} {ts ts' : List CssToken} {r : Rule}
    (h : parseRule f ts = .ok (some r, ts')) : r.selectors ≠ [] := by
  obtain ⟨a, ha, hF⟩ := bind_eq_ok h
  rcases a with ⟨o, ts1⟩
  cases o with
  | none => simp at hF
  | some sels =>
      dsimp at hF
      split at hF
      · obtain ⟨d, hd, hD⟩ := bind_eq_ok hF
        have : some (⟨sels, d.1⟩ : Rule) = some r := by
          simpa using congrArg Prod.fst (Res.ok.inj hD)
        cases Option.some.inj this
        exact parseSelectors_some_ne_nil ha
      · simp at hF

/-- The rule loop only appends rules obtained from successful
`parse_rule` calls. -/
theorem parseRulesLoop_selectors_ne_nil :
    ∀ (f : Nat) (acc : List Rule) (ts : List CssToken) (rules : List Rule),
      (∀ r ∈ acc, r.selectors ≠ []) → parseRulesLoop f acc ts = .ok rules →
      ∀ r ∈ rules, r.selectors ≠ [] := by
  intro f
  induction f with
  | zero => intro acc ts rules _ h; cases h
  | succ f ih =>
      intro acc ts rules hacc h
      cases ts with
      | nil =>
          simp only [parseRulesLoop] at h
          cases Res.ok.inj h
          exact hacc
      | cons t ts' =>
          simp only [parseRulesLoop] at h
          obtain ⟨a, ha, hK⟩ := bind_eq_ok h
          rcases a with ⟨o, ts2⟩
          cases o with
          | some rule =>
              refine ih (acc ++ [rule]) ts2 rules ?_ hK
              intro r hr
              rcases List.mem_append.mp hr with hl | hl
              · exact hacc r hl
              · cases List.mem_singleton.mp hl
                exact parseRule_selectors_ne_nil ha
          | none => exact ih acc (List.tail ts2) rules hacc hK

/-- C7: for every input, every rule in the list returned by
`CssParser::parse` has a non-empty selector list. -/
theorem spec_c7_selectors_nonempty (s : Str) (fuel : Nat) (rules : List Rule)
    (h : cssParse s fuel = .ok rules) : ∀ r ∈ rules, r.selectors ≠ [] := by
  obtain ⟨ts, hts, hk⟩ := bind_eq_ok h
  exact parseRulesLoop_selectors_ne_nil fuel [] ts rules (by intro r hr; cases hr) hk

/-- C7 witness: the theorem applied to a concrete parse. -/
theorem spec_c7_witness :
    cssParse ("a \x7b \x7d".toList) 9 = .ok [⟨[.Type ("a".toList)], []⟩] ∧
    (⟨[.Type ("a".toList)], []⟩ : Rule).selectors ≠ [] :=
  ⟨by decide, spec_c7_selectors_nonempty ("a \x7b \x7d".toList) 9
    [⟨[.Type ("a".toList)], []⟩] (by decide) ⟨[.Type ("a".toList)], []⟩
    (List.mem_singleton.mpr rfl)⟩

/-- `rustTrim` in terms of the Mathlib combinators. -/
theorem rustTrim_eq_rdrop (s : Str) :
    rustTrim s =
      List.rdropWhile rustIsWhitespace (List.dropWhile rustIsWhitespace s) := rfl

/-- Trimming is idempotent. -/
theorem rustTrim_idem (s : Str) : rustTrim (rustTrim s) = rustTrim s := by
  have key : ∀ l : Str, List.dropWhile rustIsWhitespace
      (List.rdropWhile rustIsWhitespace (List.dropWhile rustIsWhitespace l)) =
      List.rdropWhile rustIsWhitespace (List.dropWhile rustIsWhitespace l) := by
    intro l
    rw [List.dropWhile_eq_self_iff]
    intro hl
    have hpre := List.rdropWhile_prefix rustIsWhitespace
      (List.dropWhile rustIsWhitespace l)
    have h0 : 0 < (List.dropWhile rustIsWhitespace l).length :=
      lt_of_lt_of_le hl hpre.length_le
    have hhead := (List.dropWhile_eq_self_iff.mp
      (List.dropWhile_idempotent rustIsWhitespace l)) h0
    simp only [List.get_eq_getElem] at hhead ⊢
    rw [hpre.getElem hl]
    exact hhead
  rw [rustTrim_eq_rdrop (rustTrim s), rustTrim_eq_rdrop s, key s,
    List.rdropWhile_idempotent]

/-- Every value produced by `parse_declaration` is a trimmed string. -/
theorem parseDeclaration_trimmed {ts : List CssToken} {pv : Str × Str}
    (h : (parseDeclaration ts).1 = some pv) : rustTrim pv.2 = pv.2 := by
  unfold parseDeclaration at h
  split at h
  · dsimp only at h
    split at h
    · split at h
      · simp at h
      · simp only at h
        cases h
        exact rustTrim_idem _
    · simp at h
  · simp at h

/-- `insertAssoc` preserves all-values-trimmed when the inserted value is
trimmed. -/
theorem insertAssoc_trimmed {m : List (Str × Str)} {k v : Str}
    (hm : ∀ pv ∈ m, rustTrim pv.2 = pv.2) (hv : rustTrim v = v) :
    ∀ pv ∈ insertAssoc m k v, rustTrim pv.2 = pv.2 := by
  intro pv hpv
  by_cases hc : List.any m (fun p => p.1 = k)
  · rw [insertAssoc, if_pos hc] at hpv
    obtain ⟨q, hq, heq⟩ := List.mem_map.mp hpv
    by_cases hk : q.1 = k
    · rw [if_pos hk] at heq
      cases heq
      exact hv
    · rw [if_neg hk] at heq
      exact heq ▸ hm q hq
  · rw [insertAssoc, if_neg hc] at hpv
    rcases List.mem_append.mp hpv with hl | hl
    · exact hm pv hl
    · cases List.mem_singleton.mp hl
      exact hv

/-- The declarations loop preserves all-values-trimmed. -/
theorem parseDeclarationsLoop_trimmed :
    ∀ (f : Nat) (decls : List (Str × Str)) (ts : List CssToken)
      (out : List (Str × Str) × List CssToken),
      (∀ pv ∈ decls, rustTrim pv.2 = pv.2) →
      parseDeclarationsLoop f decls ts = .ok out →
      ∀ pv ∈ out.1, rustTrim pv.2 = pv.2 := by
  intro f
  induction f with
  | zero => intro decls ts out _ h; cases h
  | succ f ih =>
      intro decls ts out hd h
      simp only [parseDeclarationsLoop] at h
      split at h
      · cases Res.ok.inj h; exact hd
      · cases Res.ok.inj h; exact hd
      · have hins : ∀ pv ∈ (match (parseDeclaration (pSkipWs ts)).1 with
            | some pv => insertAssoc decls pv.1 pv.2
            | none => decls), rustTrim pv.2 = pv.2 := by
          cases hr : (parseDeclaration (pSkipWs ts)).1 with
          | some pv =>
              simp only [hr]
              exact insertAssoc_trimmed hd (parseDeclaration_trimmed hr)
          | none => simp only [hr]; exact hd
        split at h
        · exact ih _ _ out hins h
        · exact ih _ _ out hins h

/-- A rule built by `parse_rule` has all declaration values trimmed. -/
theorem parseRule_trimmed {f : Nat} {ts ts' : List CssToken} {r : Rule}
    (h : parseRule f ts = .ok (some r, ts')) :
    ∀ pv ∈ r.declarations, rustTrim pv.2 = pv.2 := by
  obtain ⟨a, ha, hF⟩ := bind_eq_ok h
  rcases a with ⟨o, ts1⟩
  cases o with
  | none => simp at hF
  | some sels =>
      dsimp at hF
      split at hF
      · obtain ⟨d, hd, hD⟩ := bind_eq_ok hF
        have : some (⟨sels, d.1⟩ : Rule) = some r := by
          simpa using congrArg Prod.fst (Res.ok.inj hD)
        cases Option.some.inj this
        exact parseDeclarationsLoop_trimmed f [] _ d (by intro pv hpv; cases hpv) hd
      · simp at hF

/-- The rule loop preserves all-values-trimmed across rules. -/
theorem parseRulesLoop_trimmed :
    ∀ (f : Nat) (acc : List Rule) (ts : List CssToken) (rules : List Rule),
      (∀ r ∈ acc, ∀ pv ∈ r.declarations, rustTrim pv.2 = pv.2) →
      parseRulesLoop f acc ts = .ok rules →
      ∀ r ∈ rules, ∀ pv ∈ r.declarations, rustTrim pv.2 = pv.2 := by
  intro f
  induction f with
  | zero => intro acc ts rules _ h; cases h
  | succ f ih =>
      intro acc ts rules hacc h
      cases ts with
      | nil =>
          simp only [parseRulesLoop] at h
          cases Res.ok.inj h
          exact hacc
      | cons t ts' =>
          simp only [parseRulesLoop] at h
          obtain ⟨a, ha, hK⟩ := bind_eq_ok h
          rcases a with ⟨o, ts2⟩
          cases o with
          | some rule =>
              refine ih (acc ++ [rule]) ts2 rules ?_ hK
              intro r hr
              rcases List.mem_append.mp hr with hl | hl
              · exact hacc r hl
              · cases List.mem_singleton.mp hl
                exact parseRule_trimmed ha
          | none => exact ih acc (List.tail ts2) rules hacc hK

/-- C4 (amended): declaration values are the concatenation of
`token_to_string` renderings — identifiers, hashes and delimiters
verbatim, quoted strings re-wrapped in double quotes, numbers re-rendered
from the parsed value — with one space pushed per intervening whitespace
token and the result trimmed.  First conjunct: for every input, every
stored value has no leading or trailing whitespace (it is a fixed point of
`rustTrim`).  Second conjunct: whitespace runs between value tokens
collapse to one space.  Third conjunct: a single-quoted string is stored
re-quoted with double quotes, not verbatim. -/
theorem spec_c4_value_rendering :
    (∀ (s : Str) (fuel : Nat) (rules : List Rule), cssParse s fuel = .ok rules →
        ∀ r ∈ rules, ∀ pv ∈ r.declarations, rustTrim pv.2 = pv.2) ∧
    cssParse ("div \x7b margin:  10px   0 ; \x7d".toList) 40 =
      .ok [⟨[.Type ("div".toList)],
            [(("margin".toList), ("10px 0".toList))]⟩] ∧
    cssParse ("div \x7b content: \x27a\x27; \x7d".toList) 40 =
      .ok [⟨[.Type ("div".toList)],
            [(("content".toList), ("\"a\"".toList))]⟩] := by
  refine ⟨?_, by decide, by decide⟩
  intro s fuel rules h r hr
  obtain ⟨ts, hts, hk⟩ := bind_eq_ok h
  exact parseRulesLoop_trimmed fuel [] ts rules (by intro x hx; cases hx) hk r hr

/-- C4 witness: the universal conjunct applied to a concrete parse. -/
theorem spec_c4_witness :
    cssParse ("a \x7b b: c; \x7d".toList) 9 =
      .ok [⟨[.Type ("a".toList)], [(("b".toList), ("c".toList))]⟩] ∧
    rustTrim ("c".toList) = ("c".toList) :=
  ⟨by decide,
    spec_c4_value_rendering.1 ("a \x7b b: c; \x7d".toList) 9
      [⟨[.Type ("a".toList)], [(("b".toList), ("c".toList))]⟩] (by decide)
      ⟨[.Type ("a".toList)], [(("b".toList), ("c".toList))]⟩
      (List.mem_singleton.mpr rfl) (("b".toList), ("c".toList))
      (List.mem_singleton.mpr rfl)⟩

/-- Every character occupies at least one byte. -/
theorem one_le_chSize (c : Char) : 1 ≤ chSize c := by
  unfold chSize
  split
  · omega
  · split
    · omega
    · split <;> omega

/-- The character count never exceeds the byte count. -/
theorem length_le_byteLen (s : Str) : List.length s ≤ byteLen s := by
  induction s with
  | nil => exact Nat.le_refl 0
  | cons c cs ih =>
      have := one_le_chSize c
      show cs.length + 1 ≤ chSize c + byteLen cs
      omega

/-- On ASCII strings the byte count equals the character count. -/
theorem byteLen_ascii {s : Str} (h : asciiStr s) : byteLen s = List.length s := by
  induction s with
  | nil => rfl
  | cons c cs ih =>
      have hc : chSize c = 1 := by
        unfold chSize
        rw [if_pos (h c (by simp))]
      show chSize c + byteLen cs = cs.length + 1
      rw [hc, ih (fun x hx => h x (by simp [hx]))]
      omega

/-- A cursor holding a character is below the byte length. -/
theorem currentChar_lt_byteLen {s : Str} {pos : Nat} {c : Char}
    (h : currentChar s pos = some c) : pos < byteLen s :=
  lt_of_lt_of_le (List.get?_eq_some.mp h).1 (length_le_byteLen s)

/-- `advance` below the byte length is an increment. -/
theorem advance_of_some {s : Str} {pos : Nat} {c : Char}
    (h : currentChar s pos = some c) : advance s pos = pos + 1 := by
  unfold advance
  rw [if_pos (currentChar_lt_byteLen h)]

/-- On ASCII strings `takeBytes` is `List.take`. -/
theorem takeBytes_ascii :
    ∀ {s : Str} (b : Nat), asciiStr s → b ≤ List.length s →
      takeBytes s b = some (List.take b s) := by
  intro s
  induction s with
  | nil =>
      intro b _ hb
      have : b = 0 := by simpa using hb
      subst this
      rfl
  | cons c cs ih =>
      intro b ha hb
      cases b with
      | zero => rfl
      | succ b =>
          have hc : chSize c = 1 := by
            unfold chSize
            rw [if_pos (ha c (by simp))]
          show (if chSize c ≤ b + 1 then
              Option.map (c :: ·) (takeBytes cs (b + 1 - chSize c)) else none) = _
          rw [hc, if_pos (by omega)]
          have : b + 1 - 1 = b := by omega
          rw [this, ih b (fun x hx => ha x (by simp [hx])) (by simpa using hb)]
          rfl

/-- On ASCII strings `dropBytes` is `List.drop`. -/
theorem dropBytes_ascii :
    ∀ {s : Str} (a : Nat), asciiStr s → a ≤ List.length s →
      dropBytes s a = some (List.drop a s) := by
  intro s
  induction s with
  | nil =>
      intro a _ hb
      have : a = 0 := by simpa using hb
      subst this
      rfl
  | cons c cs ih =>
      intro a ha hb
      cases a with
      | zero => rfl
      | succ a =>
          have hc : chSize c = 1 := by
            unfold chSize
            rw [if_pos (ha c (by simp))]
          show (if chSize c ≤ a + 1 then dropBytes cs (a + 1 - chSize c) else none) = _
          rw [hc, if_pos (by omega)]
          have : a + 1 - 1 = a := by omega
          rw [this, ih a (fun x hx => ha x (by simp [hx])) (by simpa using hb)]
          rfl

/-- `takeBytes` fails past the end of the byte range. -/
theorem takeBytes_none_of_byteLen_lt :
    ∀ (s : Str) (b : Nat), byteLen s < b → takeBytes s b = none := by
  intro s
  induction s with
  | nil =>
      intro b hb
      cases b with
      | zero => omega
      | succ b => rfl
  | cons c cs ih =>
      intro b hb
      have hby : byteLen (c :: cs) = chSize c + byteLen cs := rfl
      cases b with
      | zero => omega
      | succ b =>
          show (if chSize c ≤ b + 1 then
              Option.map (c :: ·) (takeBytes cs (b + 1 - chSize c)) else none) = none
          by_cases hcs : chSize c ≤ b + 1
          · rw [if_pos hcs, ih (b + 1 - chSize c) (by omega)]
            rfl
          · rw [if_neg hcs]
  
/-- ASCII-ness restricts to `take`. -/
theorem asciiStr_take {s : Str} (n : Nat) (h : asciiStr s) :
    asciiStr (List.take n s) :=
  fun c hc => h c (List.mem_of_mem_take hc)

/-- ASCII-ness restricts to `drop`. -/
theorem asciiStr_drop {s : Str} (n : Nat) (h : asciiStr s) :
    asciiStr (List.drop n s) :=
  fun c hc => h c (List.mem_of_mem_drop hc)

/-- The cursor-range segment of the input: characters `a` (inclusive) to
`b` (exclusive). -/
def seg (s : Str) (a b : Nat) : Str := List.take (b - a) (List.drop a s)

/-- On ASCII strings a successful byte slice is exactly the character
segment, with in-range endpoints. -/
theorem sliceBytes_ascii_ok {s : Str} {a b : Nat} {u : Str} (hs : asciiStr s)
    (h : sliceBytes s a b = some u) :
    a ≤ b ∧ b ≤ List.length s ∧ u = seg s a b := by
  unfold sliceBytes at h
  by_cases hab : a ≤ b
  · rw [if_pos hab] at h
    by_cases hb : b ≤ List.length s
    · rw [takeBytes_ascii b hs hb] at h
      simp only [Option.bind] at h
      have hlen : a ≤ List.length (List.take b s) := by
        rw [List.length_take]
        omega
      rw [dropBytes_ascii a (asciiStr_take b hs) hlen] at h
      refine ⟨hab, hb, ?_⟩
      have := Option.some.inj h
      rw [← this, seg, List.drop_take]
    · exfalso
      have hbl : byteLen s < b := by rw [byteLen_ascii hs]; omega
      rw [takeBytes_none_of_byteLen_lt s b hbl] at h
      cases h
  · rw [if_neg hab] at h
    cases h

/-- Soundness of `scanWhile`: a successful scan ends at or after its
start, every character strictly before the end satisfies the test, and the
end is at end of input or at a failing character. -/
theorem scanWhile_spec {p : Char → Bool} {s : Str} :
    ∀ {fuel pos e : Nat}, scanWhile p s fuel pos = .ok e →
      pos ≤ e ∧
      (∀ i, pos ≤ i → i < e → ∃ c, currentChar s i = some c ∧ p c = true) ∧
      (∀ c, currentChar s e = some c → p c = false) := by
  intro fuel
  induction fuel with
  | zero => intro pos e h; cases h
  | succ fuel ih =>
      intro pos e h
      rw [scanWhile] at h
      cases hc : currentChar s pos with
      | none =>
          rw [hc] at h
          dsimp only at h
          cases Res.ok.inj h
          exact ⟨Nat.le_refl _, fun i h1 h2 => absurd h2 (by omega),
            fun c hcc => by rw [hc] at hcc; cases hcc⟩
      | some c =>
          rw [hc] at h
          dsimp only at h
          by_cases hp : p c
          · rw [if_pos hp, advance_of_some hc] at h
            obtain ⟨h1, h2, h3⟩ := ih h
            refine ⟨by omega, ?_, h3⟩
            intro i hi1 hi2
            rcases Nat.eq_or_lt_of_le hi1 with rfl | hlt
            · exact ⟨c, hc, hp⟩
            · exact h2 i hlt hi2
          · rw [if_neg hp] at h
            cases Res.ok.inj h
            exact ⟨Nat.le_refl _, fun i hi1 hi2 => absurd hi2 (by omega),
              fun c' hcc => by rw [hc] at hcc; cases Option.some.inj hcc; simpa using hp⟩

/-- Completeness of `scanWhile`: when every remaining character satisfies
the test and the fuel covers the remainder, the scan ends exactly at the
end of the input. -/
theorem scanWhile_all {p : Char → Bool} {s : Str} :
    ∀ (fuel pos : Nat), pos ≤ List.length s →
      List.length s + 1 ≤ fuel + pos →
      (∀ i c, pos ≤ i → currentChar s i = some c → p c = true) →
      scanWhile p s fuel pos = .ok (List.length s) := by
  intro fuel
  induction fuel with
  | zero => intro pos h1 h2 _; omega
  | succ fuel ih =>
      intro pos h1 h2 hall
      rw [scanWhile]
      rcases Nat.eq_or_lt_of_le h1 with rfl | hlt
      · rw [show currentChar s (List.length s) = none from
          List.get?_eq_none.mpr (Nat.le_refl _)]
      · have hc : ∃ c, currentChar s pos = some c := by
          rcases hcc : currentChar s pos with _ | c
          · exact absurd (List.get?_eq_none.mp hcc) (by omega)
          · exact ⟨c, rfl⟩
        obtain ⟨c, hc⟩ := hc
        rw [hc]
        dsimp only
        rw [if_pos (hall pos c (Nat.le_refl _) hc), advance_of_some hc]
        exact ih (pos + 1) (by omega) (by omega)
          (fun i d hi hd => hall i d (by omega) hd)

/-- A scan stopped at its start: the current character fails the test. -/
theorem scanWhile_stop {p : Char → Bool} {s : Str} {fuel pos : Nat} {c : Char}
    (hc : currentChar s pos = some c) (hp : p c = false) :
    scanWhile p s (fuel + 1) pos = .ok pos := by
  rw [scanWhile, hc]
  dsimp only
  rw [if_neg (by simp [hp])]

/-- Characters of a segment, looked up in the underlying string. -/
theorem seg_get? {s : Str} {a b i : Nat} (hb : b ≤ List.length s) (hi : i < b - a) :
    List.get? (seg s a b) i = List.get? s (a + i) := by
  unfold seg
  rw [List.get?_eq_getElem?, List.get?_eq_getElem?]
  rw [List.getElem?_take_of_lt hi, List.getElem?_drop]

/-- Length of a segment with in-range endpoints. -/
theorem seg_length {s : Str} {a b : Nat} (ha : a ≤ b) (hb : b ≤ List.length s) :
    List.length (seg s a b) = b - a := by
  unfold seg
  rw [List.length_take, List.length_drop]
  omega

/-- Segments split at an interior point. -/
theorem seg_append {s : Str} {a b c : Nat} (h1 : a ≤ b) (h2 : b ≤ c) :
    seg s a c = seg s a b ++ seg s b c := by
  unfold seg
  have hc : c - a = (b - a) + (c - b) := by omega
  rw [hc, List.take_add]
  congr 1
  rw [List.drop_drop]
  have : a + (b - a) = b := by omega
  rw [this]

/-- Membership in a segment implies membership in the string. -/
theorem seg_subset {s : Str} {a b : Nat} {c : Char} (h : c ∈ seg s a b) : c ∈ s :=
  List.mem_of_mem_drop (List.mem_of_mem_take h)

/-- All characters of a segment covered by a scan satisfy its test. -/
theorem seg_all_of_scan {p : Char → Bool} {s : Str} {a b : Nat}
    (hb : b ≤ List.length s)
    (hall : ∀ i, a ≤ i → i < b → ∃ c, currentChar s i = some c ∧ p c = true) :
    ∀ c ∈ seg s a b, p c = true := by
  intro c hc
  obtain ⟨i, hig⟩ := List.mem_iff_get?.mp hc
  have hilen : i < b - a := by
    have := (List.get?_eq_some.mp hig).1
    unfold seg at this
    rw [List.length_take, List.length_drop, lt_min_iff] at this
    exact this.1
  have hg : currentChar s (a + i) = some c := by
    unfold currentChar
    rw [← seg_get? hb hilen]
    exact hig
  obtain ⟨d, hd, hp⟩ := hall (a + i) (by omega) (by omega)
  rw [hg] at hd
  cases Option.some.inj hd
  exact hp

/-- Inversion of a successful `ofSlice`. -/
theorem ofSlice_eq_ok {α : Type} {x : Option α} {a : α} (h : ofSlice x = .ok a) :
    x = some a := by
  cases x with
  | some b => cases Res.ok.inj h; rfl
  | none => cases h

/-- The numeric literal carried by a token, when it is a numeric token. -/
def numericLit : CssToken → Option Str
  | .Number l => some l
  | .Dimension l _ => some l
  | .Percentage l => some l
  | _ => none

/-- `consume_comment`'s loop only produces comment tokens. -/
theorem cssCommentLoop_kind {s : Str} :
    ∀ {fuel start pos : Nat} {tok : CssToken} {e : Nat},
      cssCommentLoop s fuel start pos = .ok (tok, e) → ∃ u, tok = .Comment u := by
  intro fuel
  induction fuel with
  | zero => intro _ _ _ _ h; cases h
  | succ fuel ih =>
      intro start pos tok e h
      rw [cssCommentLoop] at h
      split at h
      · split at h
        · obtain ⟨u, _, hk⟩ := bind_eq_ok h
          exact ⟨u, by simpa using (congrArg Prod.fst (Res.ok.inj hk)).symm⟩
        · exact ih h
      · obtain ⟨u, _, hk⟩ := bind_eq_ok h
        exact ⟨u, by simpa using (congrArg Prod.fst (Res.ok.inj hk)).symm⟩

/-- `consume_string`'s loop only produces string tokens. -/
theorem cssStringLoop_kind {s : Str} {q : Char} :
    ∀ {fuel start pos : Nat} {tok : CssToken} {e : Nat},
      cssStringLoop s q fuel start pos = .ok (tok, e) → ∃ u, tok = .String u := by
  intro fuel
  induction fuel with
  | zero => intro _ _ _ _ h; cases h
  | succ fuel ih =>
      intro start pos tok e h
      rw [cssStringLoop] at h
      split at h
      · split at h
        · obtain ⟨u, _, hk⟩ := bind_eq_ok h
          exact ⟨u, by simpa using (congrArg Prod.fst (Res.ok.inj hk)).symm⟩
        · split at h
          · dsimp only at h
            split at h <;> exact ih h
          · exact ih h
      · obtain ⟨u, _, hk⟩ := bind_eq_ok h
        exact ⟨u, by simpa using (congrArg Prod.fst (Res.ok.inj hk)).symm⟩

/-- `consume_hash` yields a hash or the bare `#` delimiter. -/
theorem cssConsumeHash_kind {s : Str} {pos : Nat} {tok : CssToken} {e : Nat}
    (h : cssConsumeHash s pos = .ok (tok, e)) :
    tok = .Delim '#' ∨ ∃ u, tok = .Hash u := by
  obtain ⟨p2, _, hk⟩ := bind_eq_ok h
  split at hk
  · exact Or.inl (by simpa using (congrArg Prod.fst (Res.ok.inj hk)).symm)
  · obtain ⟨u, _, hk2⟩ := bind_eq_ok hk
    exact Or.inr ⟨u, by simpa using (congrArg Prod.fst (Res.ok.inj hk2)).symm⟩

/-- `consume_at_keyword` yields an at-keyword or the bare `@` delimiter. -/
theorem cssConsumeAt_kind {s : Str} {pos : Nat} {tok : CssToken} {e : Nat}
    (h : cssConsumeAt s pos = .ok (tok, e)) :
    tok = .Delim '@' ∨ ∃ u, tok = .AtKeyword u := by
  obtain ⟨p2, _, hk⟩ := bind_eq_ok h
  split at hk
  · exact Or.inl (by simpa using (congrArg Prod.fst (Res.ok.inj hk)).symm)
  · obtain ⟨u, _, hk2⟩ := bind_eq_ok hk
    exact Or.inr ⟨u, by simpa using (congrArg Prod.fst (Res.ok.inj hk2)).symm⟩

/-- The quoted URL branch only produces url tokens. -/
theorem cssUrlQuoted_kind {s : Str} {q : Char} {start : Nat} {tok : CssToken}
    {e : Nat} (h : cssUrlQuoted s q start = .ok (tok, e)) : ∃ u, tok = .Url u := by
  obtain ⟨p2, _, hk⟩ := bind_eq_ok h
  split at hk
  · obtain ⟨u, _, hk2⟩ := bind_eq_ok hk
    obtain ⟨p3, _, hk3⟩ := bind_eq_ok hk2
    split at hk3 <;>
      exact ⟨u, by simpa using (congrArg Prod.fst (Res.ok.inj hk3)).symm⟩
  · obtain ⟨u, _, hk2⟩ := bind_eq_ok hk
    exact ⟨u, by simpa using (congrArg Prod.fst (Res.ok.inj hk2)).symm⟩

/-- The unquoted URL branch only produces url tokens. -/
theorem cssUrlUnquoted_kind {s : Str} {start : Nat} {tok : CssToken} {e : Nat}
    (h : cssUrlUnquoted s start = .ok (tok, e)) : ∃ u, tok = .Url u := by
  obtain ⟨p2, _, hk⟩ := bind_eq_ok h
  split at hk
  · obtain ⟨u, _, hk2⟩ := bind_eq_ok hk
    exact ⟨_, by simpa using (congrArg Prod.fst (Res.ok.inj hk2)).symm⟩
  · obtain ⟨u, _, hk2⟩ := bind_eq_ok hk
    exact ⟨u, by simpa using (congrArg Prod.fst (Res.ok.inj hk2)).symm⟩

/-- The URL mode only produces url tokens. -/
theorem cssConsumeUrl_kind {s : Str} {pos : Nat} {tok : CssToken} {e : Nat}
    (h : cssConsumeUrl s pos = .ok (tok, e)) : ∃ u, tok = .Url u := by
  obtain ⟨p1, _, hk⟩ := bind_eq_ok h
  split at hk
  · split at hk
    · exact cssUrlQuoted_kind hk
    · exact cssUrlUnquoted_kind hk
  · exact cssUrlUnquoted_kind hk

/-- `consume_ident_or_url` yields an identifier or a url token. -/
theorem cssConsumeIdentOrUrl_kind {s : Str} {pos : Nat} {tok : CssToken} {e : Nat}
    (h : cssConsumeIdentOrUrl s pos = .ok (tok, e)) :
    (∃ u, tok = .Ident u) ∨ ∃ u, tok = .Url u := by
  obtain ⟨p1, _, hk⟩ := bind_eq_ok h
  obtain ⟨u, _, hk2⟩ := bind_eq_ok hk
  split at hk2
  · exact Or.inr (cssConsumeUrl_kind hk2)
  · exact Or.inl ⟨u, by simpa using (congrArg Prod.fst (Res.ok.inj hk2)).symm⟩

/-- `consume_number` yields one of the three numeric kinds. -/
theorem cssConsumeNumber_kind {s : Str} {pos : Nat} {tok : CssToken} {e : Nat}
    (h : cssConsumeNumber s pos = .ok (tok, e)) : ∃ l, numericLit tok = some l := by
  obtain ⟨p3, _, hk⟩ := bind_eq_ok h
  obtain ⟨lit0, _, hk2⟩ := bind_eq_ok hk
  split at hk2
  · exact ⟨lit0, by cases Res.ok.inj hk2; rfl⟩
  · split at hk2
    · split at hk2
      · obtain ⟨p4, _, hk3⟩ := bind_eq_ok hk2
        obtain ⟨u, _, hk4⟩ := bind_eq_ok hk3
        exact ⟨lit0, by cases Res.ok.inj hk4; rfl⟩
      · exact ⟨lit0, by cases Res.ok.inj hk2; rfl⟩
    · exact ⟨lit0, by cases Res.ok.inj hk2; rfl⟩

/-- Numeric range of a digit character. -/
theorem isDigit_toNat {c : Char} (h : c.isDigit = true) :
    48 ≤ c.toNat ∧ c.toNat ≤ 57 := by
  simp only [Char.isDigit, Bool.and_eq_true, decide_eq_true_eq] at h
  obtain ⟨h1, h2⟩ := h
  exact ⟨UInt32.le_def.mp h1, UInt32.le_def.mp h2⟩

/-- A digit is distinct from any character outside the digit range. -/
theorem isDigit_ne {c : Char} (h : c.isDigit = true) (d : Char)
    (hd : d.isDigit = false) : c ≠ d := by
  intro he
  rw [he, hd] at h
  cases h

/-- Characters below code point 65 are fixed by `toLower`. -/
theorem toLower_eq_self {c : Char} (h : c.toNat < 65) : Char.toLower c = c := by
  unfold Char.toLower
  rw [if_neg]
  omega

/-- `takeWhile` walks over an all-true block. -/
theorem takeWhile_all_append {p : Char → Bool} {B C : Str}
    (h : ∀ b ∈ B, p b = true) :
    List.takeWhile p (B ++ C) = B ++ List.takeWhile p C := by
  induction B with
  | nil => simp
  | cons a B ih =>
      simp only [List.cons_append, List.takeWhile_cons, h a (by simp)]
      rw [ih (fun b hb => h b (by simp [hb]))]
      simp

/-- `dropWhile` removes an all-true block. -/
theorem dropWhile_all_append {p : Char → Bool} {B C : Str}
    (h : ∀ b ∈ B, p b = true) :
    List.dropWhile p (B ++ C) = List.dropWhile p C := by
  induction B with
  | nil => simp
  | cons a B ih =>
      simp only [List.cons_append, List.dropWhile_cons, h a (by simp), if_true,
        reduceIte]
      exact ih (fun b hb => h b (by simp [hb]))

/-- The mantissa part of a consumed numeric run (a digit block optionally
followed by a dot and a second digit block, with at least one digit in
total) passes the Rust `f64` parse. -/
theorem parseOk_after_sign {b : Char} {B C : Str} (hb : b.isDigit = true)
    (hB : ∀ x ∈ B, x.isDigit = true)
    (hC : C = [] ∨ ∃ D, C = '.' :: D ∧ ∀ d ∈ D, d.isDigit = true)
    (neg : Bool) :
    rustF64ParseOk ((if neg then ['-'] else []) ++ (b :: B) ++ C) = true := by
  have hbn := isDigit_toNat hb
  have ht : ∀ (t : Str), t = (b :: B) ++ C →
      (let low := List.map Char.toLower t
       if low = ("inf".toList : Str) ∨ low = ("infinity".toList : Str) ∨
           low = ("nan".toList : Str) then true
       else
         let d1 := List.takeWhile Char.isDigit t
         let r1 := List.dropWhile Char.isDigit t
         match r1 with
         | [] => !(List.isEmpty d1)
         | c :: r2 =>
             if c = '.' then
               let d2 := List.takeWhile Char.isDigit r2
               let r3 := List.dropWhile Char.isDigit r2
               (!(List.isEmpty d1) || !(List.isEmpty d2)) && rustF64ExpOk r3
             else !(List.isEmpty d1) && rustF64ExpOk r1) = true := by
    intro t hteq
    subst hteq
    have hlow : ¬(List.map Char.toLower ((b :: B) ++ C) = ("inf".toList : Str) ∨
        List.map Char.toLower ((b :: B) ++ C) = ("infinity".toList : Str) ∨
        List.map Char.toLower ((b :: B) ++ C) = ("nan".toList : Str)) := by
      have hhead : List.map Char.toLower ((b :: B) ++ C) =
          Char.toLower b :: List.map Char.toLower (B ++ C) := by simp
      rw [toLower_eq_self (by omega)] at hhead
      rintro (he | he | he) <;>
        · rw [hhead] at he
          have hb1 := ((List.cons.injEq _ _ _ _).mp he).1
          rw [hb1] at hb
          exact absurd hb (by decide)
    rw [if_neg hlow]
    have hdig : ∀ x ∈ b :: B, x.isDigit = true := by
      intro x hx
      rcases List.mem_cons.mp hx with rfl | hx
      · exact hb
      · exact hB x hx
    have htake := takeWhile_all_append (C := C) hdig
    have hdrop := dropWhile_all_append (C := C) hdig
    rcases hC with rfl | ⟨D, rfl, hD⟩
    · simp only [List.takeWhile_nil] at htake
      simp only [List.dropWhile_nil] at hdrop
      rw [hdrop, htake]
      simp
    · have htD : List.takeWhile Char.isDigit ('.' :: D) = [] := by
        simp [List.takeWhile_cons]
      have hdD : List.dropWhile Char.isDigit ('.' :: D) = '.' :: D := by
        simp [List.dropWhile_cons]
      rw [htake, htD, hdrop, hdD]
      dsimp only
      rw [if_pos rfl]
      have htD2 : List.takeWhile Char.isDigit D = D := by
        have := takeWhile_all_append (C := ([] : Str)) hD
        simpa using this
      have hdD2 : List.dropWhile Char.isDigit D = [] := by
        have := dropWhile_all_append (C := ([] : Str)) hD
        simpa using this
      rw [htD2, hdD2]
      simp [rustF64ExpOk]
  cases neg with
  | true =>
      show rustF64ParseOk ('-' :: ((b :: B) ++ C)) = true
      rw [rustF64ParseOk]
      simp only [reduceIte]
      exact ht _ rfl
  | false =>
      show rustF64ParseOk (b :: (B ++ C)) = true
      rw [rustF64ParseOk]
      have hnotsign : ¬(b = '+' ∨ b = '-') := by
        rintro (rfl | rfl) <;> simp [Char.isDigit] at hb
      simp only [if_neg hnotsign]
      exact ht _ (by simp)

/-- The dot-led mantissa (no leading digits, at least one fractional
digit) passes the Rust `f64` parse. -/
theorem parseOk_dot_digits {D : Str} (hD : ∀ d ∈ D, d.isDigit = true)
    (hne : D ≠ []) (neg : Bool) :
    rustF64ParseOk ((if neg then ['-'] else []) ++ '.' :: D) = true := by
  have ht : ∀ (t : Str), t = '.' :: D →
      (let low := List.map Char.toLower t
       if low = ("inf".toList : Str) ∨ low = ("infinity".toList : Str) ∨
           low = ("nan".toList : Str) then true
       else
         let d1 := List.takeWhile Char.isDigit t
         let r1 := List.dropWhile Char.isDigit t
         match r1 with
         | [] => !(List.isEmpty d1)
         | c :: r2 =>
             if c = '.' then
               let d2 := List.takeWhile Char.isDigit r2
               let r3 := List.dropWhile Char.isDigit r2
               (!(List.isEmpty d1) || !(List.isEmpty d2)) && rustF64ExpOk r3
             else !(List.isEmpty d1) && rustF64ExpOk r1) = true := by
    intro t hteq
    subst hteq
    have hlow : ¬(List.map Char.toLower ('.' :: D) = ("inf".toList : Str) ∨
        List.map Char.toLower ('.' :: D) = ("infinity".toList : Str) ∨
        List.map Char.toLower ('.' :: D) = ("nan".toList : Str)) := by
      have hhead : List.map Char.toLower ('.' :: D) =
          Char.toLower '.' :: List.map Char.toLower D := by simp
      rw [show Char.toLower '.' = '.' from by decide] at hhead
      rintro (he | he | he) <;>
        · rw [hhead] at he
          have hb1 := ((List.cons.injEq _ _ _ _).mp he).1
          exact absurd hb1 (by decide)
    rw [if_neg hlow]
    have htD : List.takeWhile Char.isDigit ('.' :: D) = [] := by
      simp [List.takeWhile_cons]
    have hdD : List.dropWhile Char.isDigit ('.' :: D) = '.' :: D := by
      simp [List.dropWhile_cons]
    rw [htD, hdD]
    dsimp only
    rw [if_pos rfl]
    have htD2 : List.takeWhile Char.isDigit D = D := by
      have := takeWhile_all_append (C := ([] : Str)) hD
      simpa using this
    have hdD2 : List.dropWhile Char.isDigit D = [] := by
      have := dropWhile_all_append (C := ([] : Str)) hD
      simpa using this
    rw [htD2, hdD2]
    cases D with
    | nil => exact absurd rfl hne
    | cons d D' => simp [rustF64ExpOk]
  cases neg with
  | true =>
      show rustF64ParseOk ('-' :: ('.' :: D)) = true
      rw [rustF64ParseOk]
      simp only [reduceIte]
      exact ht _ rfl
  | false =>
      show rustF64ParseOk ('.' :: D) = true
      rw [rustF64ParseOk]
      have hnotsign : ¬(('.' : Char) = '+' ∨ ('.' : Char) = '-') := by decide
      simp only [if_neg hnotsign]
      exact ht _ rfl

/-- The one-character segment at a position holding a character. -/
theorem seg_singleton {s : Str} {m : Nat} {c : Char}
    (h : currentChar s m = some c) : seg s m (m + 1) = [c] := by
  unfold seg
  have hm : m < List.length s := (List.get?_eq_some.mp h).1
  have hdrop : List.drop m s = c :: List.drop (m + 1) s := by
    rw [List.drop_eq_getElem_cons hm]
    have hc : s[m] = c := by
      have h2 := h
      unfold currentChar at h2
      rw [List.get?_eq_getElem?, List.getElem?_eq_getElem hm] at h2
      exact Option.some.inj h2
    rw [hc]
  have h1 : m + 1 - m = 1 := by omega
  rw [h1, hdrop]
  rfl

/-- The empty segment. -/
theorem seg_self (s : Str) (a : Nat) : seg s a a = [] := by
  unfold seg
  simp

/-- A proper segment within bounds is non-empty. -/
theorem seg_ne_nil {s : Str} {a b : Nat} (h1 : a < b) (h2 : b ≤ List.length s) :
    seg s a b ≠ [] := by
  have := seg_length (le_of_lt h1) h2
  intro he
  rw [he] at this
  simp at this
  omega

/-- A segment that is empty forces its endpoints together. -/
theorem seg_nil_le {s : Str} {a b : Nat} (h1 : a ≤ b) (h2 : b ≤ List.length s)
    (h : seg s a b = []) : b ≤ a := by
  by_contra hlt
  exact seg_ne_nil (by omega) h2 h

/-- Unfolding of a true `is_number_start`. -/
theorem cssIsNumberStart_true {s : Str} {pos : Nat}
    (h : cssIsNumberStart s pos = true) :
    ∃ n, currentChar s (pos + 1) = some n ∧ (n.isDigit = true ∨ n = '.') := by
  unfold cssIsNumberStart at h
  cases hp : peekChar s pos 1 with
  | none => rw [hp] at h; cases h
  | some n =>
      rw [hp] at h
      dsimp only at h
      simp only [Bool.or_eq_true, decide_eq_true_eq] at h
      rcases h with hd | hd
      · exact ⟨n, hp, Or.inl hd⟩
      · exact ⟨n, hp, Or.inr hd⟩

/-- Unfolding of a true dot-number guard. -/
theorem cssDotNumber_true {s : Str} {pos : Nat}
    (h : cssDotNumber s pos = true) :
    ∃ n, currentChar s (pos + 1) = some n ∧ n.isDigit = true := by
  unfold cssDotNumber at h
  cases hp : peekChar s pos 1 with
  | none => rw [hp] at h; cases h
  | some n => rw [hp] at h; exact ⟨n, hp, h⟩

/-- Core of the C5 analysis: a consumed numeric literal, reached through
one of the three number-start dispatch conditions, either passes the Rust
`f64` parse or is exactly the text `-.`. -/
theorem consumeNumber_parseOk {s : Str} {pos e : Nat} {tok : CssToken} {lit : Str}
    (hs : asciiStr s)
    (hd : (∃ c, currentChar s pos = some c ∧ c.isDigit = true) ∨
          (currentChar s pos = some '.' ∧ cssDotNumber s pos = true) ∨
          (currentChar s pos = some '-' ∧ cssIsNumberStart s pos = true))
    (h : cssConsumeNumber s pos = .ok (tok, e))
    (hlit : numericLit tok = some lit) :
    rustF64ParseOk lit = true ∨ lit = ("-.".toList : Str) := by
  unfold cssConsumeNumber at h
  dsimp only at h
  by_cases hminus : currentChar s pos = some '-'
  case pos =>
    rw [if_pos hminus, advance_of_some hminus] at h
    obtain ⟨p3, hrun, h2⟩ := bind_eq_ok h
    obtain ⟨lit0, hsl, h3⟩ := bind_eq_ok h2
    obtain ⟨hab, hblen, hseg⟩ := sliceBytes_ascii_ok hs (ofSlice_eq_ok hsl)
    have hlit0 : lit = lit0 := by
      split at h3
      · have ht := congrArg Prod.fst (Res.ok.inj h3)
        dsimp only at ht
        rw [← ht] at hlit
        exact (Option.some.inj hlit).symm
      · split at h3
        · split at h3
          · obtain ⟨p4, _, hk3⟩ := bind_eq_ok h3
            obtain ⟨u, _, hk4⟩ := bind_eq_ok hk3
            have ht := congrArg Prod.fst (Res.ok.inj hk4)
            dsimp only at ht
            rw [← ht] at hlit
            exact (Option.some.inj hlit).symm
          · have ht := congrArg Prod.fst (Res.ok.inj h3)
            dsimp only at ht
            rw [← ht] at hlit
            exact (Option.some.inj hlit).symm
        · have ht := congrArg Prod.fst (Res.ok.inj h3)
          dsimp only at ht
          rw [← ht] at hlit
          exact (Option.some.inj hlit).symm
    subst hlit0
    clear h3 hlit h2 h hsl
    unfold cssNumRunEnd at hrun
    obtain ⟨p2, hscan1, hrest⟩ := bind_eq_ok hrun
    obtain ⟨hle1, hdig1, hstop1⟩ := scanWhile_spec hscan1
    obtain ⟨n, hn, hnd⟩ := cssIsNumberStart_true (by
      rcases hd with ⟨c, hc, hcd⟩ | ⟨hc, _⟩ | ⟨_, hns⟩
      · rw [hc] at hminus
        cases Option.some.inj hminus
        simp [Char.isDigit] at hcd
      · rw [hc] at hminus
        cases Option.some.inj hminus
      · exact hns)
    by_cases hdot : currentChar s p2 = some '.'
    case pos =>
      rw [if_pos hdot, advance_of_some hdot] at hrest
      obtain ⟨hle2, hdig2, hstop2⟩ := scanWhile_spec hrest
      have hp2len : p2 ≤ List.length s := by omega
      have hsegA : seg s pos (pos + 1) = ['-'] := seg_singleton hminus
      have hsegDot : seg s p2 (p2 + 1) = ['.'] := seg_singleton hdot
      have hsplit : lit = ['-'] ++ seg s (pos + 1) p2 ++ ('.' :: seg s (p2 + 1) p3) := by
        rw [hseg, seg_append (by omega) (show pos + 1 ≤ p3 by omega),
          seg_append hle1 (show p2 ≤ p3 by omega), hsegA,
          seg_append (show p2 ≤ p2 + 1 by omega) hle2, hsegDot]
        simp
      have hd1 : ∀ c ∈ seg s (pos + 1) p2, c.isDigit = true :=
        seg_all_of_scan hp2len hdig1
      have hd2 : ∀ c ∈ seg s (p2 + 1) p3, c.isDigit = true :=
        seg_all_of_scan hblen hdig2
      cases hsd1 : seg s (pos + 1) p2 with
      | cons b B =>
          left
          rw [hsplit, hsd1]
          have := parseOk_after_sign (b := b) (B := B) (C := '.' :: seg s (p2 + 1) p3)
            (hd1 b (by rw [hsd1]; exact List.mem_cons_self b B))
            (fun x hx => hd1 x (by rw [hsd1]; exact List.mem_cons_of_mem b hx))
            (Or.inr ⟨seg s (p2 + 1) p3, rfl, hd2⟩) true
          simpa using this
      | nil =>
          have hp2eq : p2 = pos + 1 := le_antisymm (seg_nil_le hle1 hp2len hsd1) hle1
          cases hsd2 : seg s (p2 + 1) p3 with
          | cons b B =>
              left
              rw [hsplit, hsd1, hsd2]
              have := parseOk_dot_digits (D := b :: B)
                (by rw [← hsd2]; exact hd2) (by simp) true
              simpa using this
          | nil =>
              right
              have hp3eq : p3 ≤ p2 + 1 := seg_nil_le (by omega) hblen hsd2
              rw [hsplit, hsd1, hsd2]
              simp
    case neg =>
      rw [if_neg hdot] at hrest
      cases Res.ok.inj hrest
      have hsegA : seg s pos (pos + 1) = ['-'] := seg_singleton hminus
      have hsplit : lit = ['-'] ++ seg s (pos + 1) p3 := by
        rw [hseg, seg_append (by omega) (show pos + 1 ≤ p3 by omega), hsegA]
      have hd1 : ∀ c ∈ seg s (pos + 1) p3, c.isDigit = true :=
        seg_all_of_scan hblen hdig1
      cases hsd1 : seg s (pos + 1) p3 with
      | cons b B =>
          left
          rw [hsplit, hsd1]
          have := parseOk_after_sign (b := b) (B := B) (C := ([] : Str))
            (hd1 b (by rw [hsd1]; exact List.mem_cons_self b B))
            (fun x hx => hd1 x (by rw [hsd1]; exact List.mem_cons_of_mem b hx))
            (Or.inl rfl) true
          simpa using this
      | nil =>
          exfalso
          have hp3eq : p3 = pos + 1 := le_antisymm (seg_nil_le hle1 hblen hsd1) hle1
          rcases hnd with hnd | hnd
          · have := hstop1 n (by rw [hp3eq]; exact hn)
            rw [hnd] at this
            cases this
          · subst hnd
            rw [hp3eq] at hdot
            exact hdot hn
  case neg =>
    rw [if_neg hminus] at h
    obtain ⟨p3, hrun, h2⟩ := bind_eq_ok h
    obtain ⟨lit0, hsl, h3⟩ := bind_eq_ok h2
    obtain ⟨hab, hblen, hseg⟩ := sliceBytes_ascii_ok hs (ofSlice_eq_ok hsl)
    have hlit0 : lit = lit0 := by
      split at h3
      · have ht := congrArg Prod.fst (Res.ok.inj h3)
        dsimp only at ht
        rw [← ht] at hlit
        exact (Option.some.inj hlit).symm
      · split at h3
        · split at h3
          · obtain ⟨p4, _, hk3⟩ := bind_eq_ok h3
            obtain ⟨u, _, hk4⟩ := bind_eq_ok hk3
            have ht := congrArg Prod.fst (Res.ok.inj hk4)
            dsimp only at ht
            rw [← ht] at hlit
            exact (Option.some.inj hlit).symm
          · have ht := congrArg Prod.fst (Res.ok.inj h3)
            dsimp only at ht
            rw [← ht] at hlit
            exact (Option.some.inj hlit).symm
        · have ht := congrArg Prod.fst (Res.ok.inj h3)
          dsimp only at ht
          rw [← ht] at hlit
          exact (Option.some.inj hlit).symm
    subst hlit0
    clear h3 hlit h2 h hsl
    unfold cssNumRunEnd at hrun
    obtain ⟨p2, hscan1, hrest⟩ := bind_eq_ok hrun
    obtain ⟨hle1, hdig1, hstop1⟩ := scanWhile_spec hscan1
    have hdisp : (∃ c, currentChar s pos = some c ∧ c.isDigit = true) ∨
        (currentChar s pos = some '.' ∧ cssDotNumber s pos = true) := by
      rcases hd with hcase | hcase | ⟨hc, _⟩
      · exact Or.inl hcase
      · exact Or.inr hcase
      · exact absurd hc hminus
    by_cases hdot : currentChar s p2 = some '.'
    case pos =>
      rw [if_pos hdot, advance_of_some hdot] at hrest
      obtain ⟨hle2, hdig2, hstop2⟩ := scanWhile_spec hrest
      have hp2len : p2 ≤ List.length s := by omega
      have hsegDot : seg s p2 (p2 + 1) = ['.'] := seg_singleton hdot
      have hsplit : lit = seg s pos p2 ++ ('.' :: seg s (p2 + 1) p3) := by
        rw [hseg, seg_append hle1 (show p2 ≤ p3 by omega),
          seg_append (show p2 ≤ p2 + 1 by omega) hle2, hsegDot]
        simp
      have hd1 : ∀ c ∈ seg s pos p2, c.isDigit = true :=
        seg_all_of_scan hp2len hdig1
      have hd2 : ∀ c ∈ seg s (p2 + 1) p3, c.isDigit = true :=
        seg_all_of_scan hblen hdig2
      cases hsd1 : seg s pos p2 with
      | cons b B =>
          left
          rw [hsplit, hsd1]
          have := parseOk_after_sign (b := b) (B := B) (C := '.' :: seg s (p2 + 1) p3)
            (hd1 b (by rw [hsd1]; exact List.mem_cons_self b B))
            (fun x hx => hd1 x (by rw [hsd1]; exact List.mem_cons_of_mem b hx))
            (Or.inr ⟨seg s (p2 + 1) p3, rfl, hd2⟩) false
          simpa using this
      | nil =>
          have hp2eq : p2 = pos := le_antisymm (seg_nil_le hle1 hp2len hsd1) hle1
          cases hsd2 : seg s (p2 + 1) p3 with
          | cons b B =>
              left
              rw [hsplit, hsd1, hsd2]
              have := parseOk_dot_digits (D := b :: B)
                (by rw [← hsd2]; exact hd2) (by simp) false
              simpa using this
          | nil =>
              exfalso
              have hp3le : p3 ≤ p2 + 1 := seg_nil_le (by omega) hblen hsd2
              rcases hdisp with ⟨c, hc, hcd⟩ | ⟨hc, hdn⟩
              · rw [hp2eq] at hdot
                rw [hc] at hdot
                cases Option.some.inj hdot
                simp [Char.isDigit] at hcd
              · obtain ⟨n, hn, hnd⟩ := cssDotNumber_true hdn
                have hp3eq : p3 = p2 + 1 := by omega
                have := hstop2 n (by rw [hp3eq, hp2eq]; exact hn)
                rw [hnd] at this
                cases this
    case neg =>
      rw [if_neg hdot] at hrest
      cases Res.ok.inj hrest
      have hsplit : lit = seg s pos p3 := hseg
      have hd1 : ∀ c ∈ seg s pos p3, c.isDigit = true :=
        seg_all_of_scan hblen hdig1
      cases hsd1 : seg s pos p3 with
      | cons b B =>
          left
          rw [hsplit, hsd1]
          have := parseOk_after_sign (b := b) (B := B) (C := ([] : Str))
            (hd1 b (by rw [hsd1]; exact List.mem_cons_self b B))
            (fun x hx => hd1 x (by rw [hsd1]; exact List.mem_cons_of_mem b hx))
            (Or.inl rfl) false
          simpa using this
      | nil =>
          exfalso
          have hp3eq : p3 = pos := le_antisymm (seg_nil_le hle1 hblen hsd1) hle1
          rcases hdisp with ⟨c, hc, hcd⟩ | ⟨hc, _⟩
          · have := hstop1 c (by rw [hp3eq]; exact hc)
            rw [hcd] at this
            cases this
          · rw [hp3eq] at hdot
            exact hdot hc

/-- Under a number-start dispatch condition, `next_token` routes to
`consume_number`. -/
theorem cssNextToken_number_dispatch {s : Str} {pos : Nat}
    (hd : (∃ c, currentChar s pos = some c ∧ c.isDigit = true) ∨
          (currentChar s pos = some '.' ∧ cssDotNumber s pos = true) ∨
          (currentChar s pos = some '-' ∧ cssIsNumberStart s pos = true)) :
    cssNextToken s pos =
      Res.bind (cssConsumeNumber s pos) (fun r => .ok (some r.1, r.2)) := by
  rcases hd with ⟨c, hcc, hdig⟩ | ⟨hcc, hdn⟩ | ⟨hcc, hns⟩
  · have hlt : ¬(byteLen s ≤ pos) := by
      have := currentChar_lt_byteLen hcc
      omega
    unfold cssNextToken
    rw [if_neg hlt, hcc]
    dsimp only
    rw [if_neg (by rintro (rfl | rfl | rfl | rfl) <;> simp [Char.isDigit] at hdig),
      if_neg (by rintro ⟨rfl, _⟩; simp [Char.isDigit] at hdig),
      if_neg (by rintro rfl; simp [Char.isDigit] at hdig),
      if_neg (by rintro rfl; simp [Char.isDigit] at hdig),
      if_neg (by rintro rfl; simp [Char.isDigit] at hdig),
      if_neg (by rintro rfl; simp [Char.isDigit] at hdig),
      if_neg (by rintro rfl; simp [Char.isDigit] at hdig),
      if_neg (by rintro rfl; simp [Char.isDigit] at hdig),
      if_neg (by rintro rfl; simp [Char.isDigit] at hdig),
      if_neg (by rintro rfl; simp [Char.isDigit] at hdig),
      if_neg (by rintro rfl; simp [Char.isDigit] at hdig),
      if_neg (by rintro (rfl | rfl) <;> simp [Char.isDigit] at hdig),
      if_neg (by rintro rfl; simp [Char.isDigit] at hdig),
      if_neg (by rintro rfl; simp [Char.isDigit] at hdig),
      if_pos hdig]
  · have hlt : ¬(byteLen s ≤ pos) := by
      have := currentChar_lt_byteLen hcc
      omega
    unfold cssNextToken
    rw [if_neg hlt, hcc]
    dsimp only
    rw [if_neg (by decide), if_neg (by rintro ⟨h, _⟩; exact absurd h (by decide)),
      if_neg (by decide), if_neg (by decide), if_neg (by decide), if_neg (by decide),
      if_neg (by decide), if_neg (by decide), if_neg (by decide), if_neg (by decide),
      if_neg (by decide), if_neg (by decide), if_neg (by decide), if_neg (by decide),
      if_neg (by simp), if_pos ⟨rfl, hdn⟩]
  · have hlt : ¬(byteLen s ≤ pos) := by
      have := currentChar_lt_byteLen hcc
      omega
    unfold cssNextToken
    rw [if_neg hlt, hcc]
    dsimp only
    rw [if_neg (by decide), if_neg (by rintro ⟨h, _⟩; exact absurd h (by decide)),
      if_neg (by decide), if_neg (by decide), if_neg (by decide), if_neg (by decide),
      if_neg (by decide), if_neg (by decide), if_neg (by decide), if_neg (by decide),
      if_neg (by decide), if_neg (by decide), if_neg (by decide), if_neg (by decide),
      if_neg (by simp), if_neg (by rintro ⟨h, _⟩; exact absurd h (by decide)),
      if_pos ⟨rfl, hns⟩]

/-- C5 (amended): on ASCII input, at every number start (a digit, or `.`
followed by a digit, or `-` followed by a digit or `.`), the numeric
literal consumed by the tokenizer passes `str::parse::<f64>` unless it is
exactly the text `-.` (a `-` followed by `.` with no digit after it),
which is the one case where the `unwrap_or(0.0)` fallback fires (first
conjunct).  Classification (second conjunct): `consume_number` yields a
numeric token, Percentage exactly when the digit run is followed by `%`,
Dimension when it is followed by an alphabetic character, and Number when
it is followed by neither or by end of input. -/
theorem spec_c5_number_parse :
    (∀ (s : Str) (pos e : Nat) (tok : CssToken) (lit : Str), asciiStr s →
        ((∃ c, currentChar s pos = some c ∧ c.isDigit = true) ∨
         (currentChar s pos = some '.' ∧ cssDotNumber s pos = true) ∨
         (currentChar s pos = some '-' ∧ cssIsNumberStart s pos = true)) →
        cssNextToken s pos = .ok (some tok, e) → numericLit tok = some lit →
        rustF64ParseOk lit = true ∨ lit = ("-.".toList : Str)) ∧
    (∀ (s : Str) (pos e : Nat) (tok : CssToken),
        cssConsumeNumber s pos = .ok (tok, e) →
        (∃ l, numericLit tok = some l) ∧
        ∀ m, cssNumRunEnd s
            (if currentChar s pos = some '-' then advance s pos else pos) = .ok m →
          (currentChar s m = some '%' → ∃ l, tok = .Percentage l) ∧
          (∀ c, currentChar s m = some c → rustIsAlphabetic c = true →
            ∃ l u, tok = .Dimension l u) ∧
          ((∀ c, currentChar s m = some c → c ≠ '%' ∧ rustIsAlphabetic c = false) →
            ∃ l, tok = .Number l)) := by
  constructor
  · intro s pos e tok lit hs hd h hlit
    rw [cssNextToken_number_dispatch hd] at h
    obtain ⟨⟨t1, e1⟩, hc1, hk⟩ := bind_eq_ok h
    have ht := Option.some.inj (congrArg Prod.fst (Res.ok.inj hk))
    rw [← ht] at hlit
    exact consumeNumber_parseOk hs hd hc1 hlit
  · intro s pos e tok h
    refine ⟨cssConsumeNumber_kind h, ?_⟩
    intro m hm
    unfold cssConsumeNumber at h
    dsimp only at h
    obtain ⟨p3, hrun, h2⟩ := bind_eq_ok h
    rw [hrun] at hm
    cases Res.ok.inj hm
    obtain ⟨lit0, hsl, h3⟩ := bind_eq_ok h2
    split at h3
    · rename_i hpct
      have ht := congrArg Prod.fst (Res.ok.inj h3)
      dsimp only at ht
      refine ⟨fun _ => ⟨lit0, ht.symm⟩, ?_, ?_⟩
      · intro c hcm halpha
        rw [hpct] at hcm
        cases Option.some.inj hcm
        simp [rustIsAlphabetic] at halpha
      · intro hno
        exact absurd (hno '%' hpct).1 (by simp)
    · rename_i hnpct
      split at h3
      · rename_i ch hch
        split at h3
        · rename_i halpha
          obtain ⟨p4, _, hk3⟩ := bind_eq_ok h3
          obtain ⟨u, _, hk4⟩ := bind_eq_ok hk3
          have ht := congrArg Prod.fst (Res.ok.inj hk4)
          dsimp only at ht
          refine ⟨fun hp => absurd hp hnpct, fun c hcm _ => ⟨lit0, u, ht.symm⟩, ?_⟩
          · intro hno
            exact absurd halpha (by simp [(hno ch hch).2])
        · rename_i hnalpha
          have ht := congrArg Prod.fst (Res.ok.inj h3)
          dsimp only at ht
          refine ⟨fun hp => absurd hp hnpct, ?_, fun _ => ⟨lit0, ht.symm⟩⟩
          · intro c hcm halpha
            rw [hch] at hcm
            cases Option.some.inj hcm
            exact absurd halpha (by simpa using hnalpha)
      · rename_i hnone
        have ht := congrArg Prod.fst (Res.ok.inj h3)
        dsimp only at ht
        refine ⟨?_, ?_, fun _ => ⟨lit0, ht.symm⟩⟩
        · intro hp
          rw [hnone] at hp
          cases hp
        · intro c hcm _
          rw [hnone] at hcm
          cases hcm

/-- C5 witness: the parse-success conjunct applied to a concrete
dimension token, and the classification conjunct at the same input. -/
theorem spec_c5_witness :
    asciiStr ("12px".toList) ∧
    cssNextToken ("12px".toList) 0 =
      .ok (some (.Dimension ("12".toList) ("px".toList)), 4) ∧
    numericLit (.Dimension ("12".toList) ("px".toList)) = some ("12".toList) ∧
    (rustF64ParseOk ("12".toList) = true ∨ ("12".toList : Str) = ("-.".toList : Str)) :=
  ⟨by decide, by decide, by decide,
    spec_c5_number_parse.1 ("12px".toList) 0 4
      (.Dimension ("12".toList) ("px".toList)) ("12".toList)
      (by decide) (Or.inl ⟨'1', by decide, by decide⟩) (by decide) (by decide)⟩

/-- `parse_comment`'s loop only produces comment tokens. -/
theorem htmlCommentLoop_kind {s : Str} :
    ∀ {fuel cs pos : Nat} {r : Option HtmlToken} {e : Nat},
      htmlCommentLoop s fuel cs pos = .ok (r, e) → ∃ u, r = some (.Comment u) := by
  intro fuel
  induction fuel with
  | zero => intro _ _ _ _ h; cases h
  | succ fuel ih =>
      intro cs pos r e h
      rw [htmlCommentLoop] at h
      split at h
      · obtain ⟨w, _, hk⟩ := bind_eq_ok h
        split at hk
        · obtain ⟨u, _, hk2⟩ := bind_eq_ok hk
          exact ⟨u, by simpa using (congrArg Prod.fst (Res.ok.inj hk2)).symm⟩
        · exact ih hk
      · obtain ⟨u, _, hk⟩ := bind_eq_ok h
        exact ⟨u, by simpa using (congrArg Prod.fst (Res.ok.inj hk)).symm⟩

/-- `parse_doctype` only produces doctype tokens. -/
theorem htmlParseDoctype_kind {s : Str} {pos : Nat} {r : Option HtmlToken} {e : Nat}
    (h : htmlParseDoctype s pos = .ok (r, e)) : ∃ u, r = some (.Doctype u) := by
  obtain ⟨p2, _, hk⟩ := bind_eq_ok h
  split at hk
  · obtain ⟨u, _, hk2⟩ := bind_eq_ok hk
    exact ⟨u, by simpa using (congrArg Prod.fst (Res.ok.inj hk2)).symm⟩
  · obtain ⟨u, _, hk2⟩ := bind_eq_ok hk
    exact ⟨u, by simpa using (congrArg Prod.fst (Res.ok.inj hk2)).symm⟩

/-- `parse_text` invoked while the cursor sits on `<` consumes nothing and
returns no token (this is the reset path of `parse_tag_or_comment`). -/
theorem htmlParseText_at_lt {s : Str} {pos : Nat}
    (h : currentChar s pos = some '<') : htmlParseText s pos = .ok (none, pos) := by
  unfold htmlParseText
  rw [scanWhile_stop h (by simp)]
  dsimp only [Res.bind]
  rw [if_pos rfl]

/-- `parse_tag_or_comment`, entered at a `<`, never produces a text
token. -/
theorem htmlParseTagOrComment_no_text {s : Str} {pos fuel : Nat}
    {r : Option HtmlToken} {e : Nat} (hcc : currentChar s pos = some '<')
    (h : htmlParseTagOrComment s pos fuel = .ok (r, e)) :
    ∀ t, r ≠ some (.Text t) := by
  unfold htmlParseTagOrComment at h
  dsimp only at h
  obtain ⟨rest, _, hk⟩ := bind_eq_ok h
  split at hk
  · obtain ⟨u, hu⟩ := htmlCommentLoop_kind hk
    intro t ht
    rw [ht] at hu
    cases Option.some.inj hu
  · split at hk
    · obtain ⟨u, hu⟩ := htmlParseDoctype_kind hk
      intro t ht
      rw [ht] at hu
      cases Option.some.inj hu
    · obtain ⟨p2, hscan, hk2⟩ := bind_eq_ok hk
      intro t ht
      rw [ht] at hk2
      rw [htmlParseText_at_lt hcc] at hk2
      split at hk2
      · split at hk2
        · have hfst := congrArg Prod.fst (Res.ok.inj hk2)
          dsimp only at hfst
          cases hfst
        · obtain ⟨name, _, hk3⟩ := bind_eq_ok hk2
          obtain ⟨e2, _, hk4⟩ := bind_eq_ok hk3
          split at hk4 <;>
            · have hfst := congrArg Prod.fst (Res.ok.inj hk4)
              dsimp only at hfst
              cases Option.some.inj hfst
      · split at hk2
        · have hfst := congrArg Prod.fst (Res.ok.inj hk2)
          dsimp only at hfst
          cases hfst
        · obtain ⟨name, _, hk3⟩ := bind_eq_ok hk2
          obtain ⟨rr, _, hk4⟩ := bind_eq_ok hk3
          have hfst := congrArg Prod.fst (Res.ok.inj hk4)
          dsimp only at hfst
          cases Option.some.inj hfst

/-- Numeric range of an alphabetic character. -/
theorem isAlpha_toNat {c : Char} (h : c.isAlpha = true) :
    (65 ≤ c.toNat ∧ c.toNat ≤ 90) ∨ (97 ≤ c.toNat ∧ c.toNat ≤ 122) := by
  simp only [Char.isAlpha, Char.isUpper, Char.isLower, Bool.or_eq_true,
    Bool.and_eq_true, decide_eq_true_eq] at h
  rcases h with ⟨h1, h2⟩ | ⟨h1, h2⟩
  · exact Or.inl ⟨UInt32.le_def.mp h1, UInt32.le_def.mp h2⟩
  · exact Or.inr ⟨UInt32.le_def.mp h1, UInt32.le_def.mp h2⟩

/-- An alphabetic character is not a digit. -/
theorem isAlpha_not_digit {c : Char} (h : c.isAlpha = true) : c.isDigit = false := by
  cases hd : c.isDigit
  · rfl
  · exfalso
    obtain ⟨h1, h2⟩ := isDigit_toNat hd
    rcases isAlpha_toNat h with ⟨h3, h4⟩ | ⟨h3, h4⟩ <;> omega

/-- At an identifier start (an alphabetic character, `_`, or a `-` that
does not start a number), `next_token` dispatches to
`consume_ident_or_url`. -/
theorem cssNextToken_ident_dispatch {s : Str} {pos : Nat} {c : Char}
    (hcc : currentChar s pos = some c)
    (hcls : c.isAlpha = true ∨ c = '_' ∨ c = '-')
    (hnum : c = '-' → cssIsNumberStart s pos = false) :
    cssNextToken s pos =
      Res.bind (cssConsumeIdentOrUrl s pos) (fun r => .ok (some r.1, r.2)) := by
  have hlt : ¬(byteLen s ≤ pos) := by
    have := currentChar_lt_byteLen hcc
    omega
  have hne : ∀ d : Char, d.isAlpha = false → ('_' = d → False) → ('-' = d → False) →
      c ≠ d := by
    intro d hd h1 h2 hcd
    rcases hcls with h | rfl | rfl
    · rw [hcd, hd] at h
      cases h
    · exact h1 hcd
    · exact h2 hcd
  have hdig : c.isDigit = false := by
    rcases hcls with h | rfl | rfl
    · exact isAlpha_not_digit h
    · decide
    · decide
  unfold cssNextToken
  rw [if_neg hlt, hcc]
  dsimp only
  rw [if_neg (by rintro (h | h | h | h) <;> exact hne _ (by decide) (by decide) (by decide) h),
    if_neg (fun hx => hne '/' (by decide) (by decide) (by decide) hx.1),
    if_neg (hne '\x7b' (by decide) (by decide) (by decide)),
    if_neg (hne '\x7d' (by decide) (by decide) (by decide)),
    if_neg (hne '(' (by decide) (by decide) (by decide)),
    if_neg (hne ')' (by decide) (by decide) (by decide)),
    if_neg (hne '[' (by decide) (by decide) (by decide)),
    if_neg (hne ']' (by decide) (by decide) (by decide)),
    if_neg (hne ':' (by decide) (by decide) (by decide)),
    if_neg (hne ';' (by decide) (by decide) (by decide)),
    if_neg (hne ',' (by decide) (by decide) (by decide)),
    if_neg (by rintro (h | h) <;> exact hne _ (by decide) (by decide) (by decide) h),
    if_neg (hne '#' (by decide) (by decide) (by decide)),
    if_neg (hne '@' (by decide) (by decide) (by decide)),
    if_neg (fun hx => by rw [hdig] at hx; exact Bool.noConfusion hx),
    if_neg (fun hx => hne '.' (by decide) (by decide) (by decide) hx.1),
    if_neg (fun hx => by
      have h2 := hx.2
      rw [hnum hx.1] at h2
      exact Bool.noConfusion h2),
    if_pos hcls]

/-- An identifier-start character is in the identifier class. -/
theorem identClass_of_start {c : Char}
    (hcls : c.isAlpha = true ∨ c = '_' ∨ c = '-') : identClass c = true := by
  rcases hcls with h1 | rfl | rfl
  · simp [identClass, rustIsAlphanumeric, Char.isAlphanum, h1]
  · decide
  · decide

/-- Inversion of an `Ident` emission of the CSS tokenizer at an identifier
start on ASCII input: the token text is exactly the consumed span, the
span is nonempty and in range, and all its characters are in the
identifier class. -/
theorem cssIdent_emission {s : Str} {pos : Nat} {c : Char} {t : Str} {e : Nat}
    (hs : asciiStr s) (hcc : currentChar s pos = some c)
    (hcls : c.isAlpha = true ∨ c = '_' ∨ c = '-')
    (hnum : c = '-' → cssIsNumberStart s pos = false)
    (h : cssNextToken s pos = .ok (some (.Ident t), e)) :
    t = seg s pos e ∧ pos < e ∧ e ≤ List.length s ∧ ∀ d ∈ t, identClass d = true := by
  rw [cssNextToken_ident_dispatch hcc hcls hnum] at h
  obtain ⟨⟨tok, e2⟩, hr, hok⟩ := bind_eq_ok h
  have h1 := congrArg Prod.fst (Res.ok.inj hok)
  have h2 := congrArg Prod.snd (Res.ok.inj hok)
  dsimp only at h1 h2
  cases Option.some.inj h1
  subst h2
  unfold cssConsumeIdentOrUrl at hr
  obtain ⟨p1, hscan, hk⟩ := bind_eq_ok hr
  obtain ⟨ident, hsl, hk2⟩ := bind_eq_ok hk
  obtain ⟨hle, hall, hstop⟩ := scanWhile_spec hscan
  obtain ⟨hab, hbl, hseg⟩ := sliceBytes_ascii_ok hs (ofSlice_eq_ok hsl)
  split at hk2
  · obtain ⟨u, hu⟩ := cssConsumeUrl_kind hk2
    cases hu
  · have h3 := congrArg Prod.fst (Res.ok.inj hk2)
    have h4 := congrArg Prod.snd (Res.ok.inj hk2)
    dsimp only at h3 h4
    cases CssToken.Ident.inj h3
    subst h4
    refine ⟨hseg, ?_, hbl, ?_⟩
    · rcases Nat.eq_or_lt_of_le hle with heq | hlt2
      · exfalso
        rw [← heq] at hstop
        have := hstop c hcc
        rw [identClass_of_start hcls] at this
        cases this
      · exact hlt2
    · intro d hd
      exact seg_all_of_scan hbl hall d (hseg ▸ hd)

/-- A successful byte slice of a whole ASCII string is the string. -/
theorem sliceBytes_ascii_full {t : Str} (ht : asciiStr t) :
    sliceBytes t 0 (List.length t) = some t := by
  unfold sliceBytes
  rw [if_pos (Nat.zero_le _), takeBytes_ascii (List.length t) ht (Nat.le_refl _)]
  show Option.bind (some (List.take (List.length t) t)) (fun u => dropBytes u 0) = some t
  rw [List.take_length]
  show dropBytes t 0 = some t
  rw [dropBytes_ascii 0 ht (Nat.zero_le _), List.drop_zero]

/-- `consume_ident_or_url` on an all-identifier-class ASCII string consumes
it whole and emits it as an `Ident` token. -/
theorem cssConsumeIdentOrUrl_full {t : Str} (ht : asciiStr t)
    (hcls : ∀ d ∈ t, identClass d = true) :
    cssConsumeIdentOrUrl t 0 = .ok (.Ident t, List.length t) := by
  unfold cssConsumeIdentOrUrl
  rw [scanWhile_all (byteLen t + 1) 0 (Nat.zero_le _)
    (by rw [byteLen_ascii ht])
    (fun i d _ hd => hcls d (List.get?_mem hd))]
  dsimp only [Res.bind]
  rw [sliceBytes_ascii_full ht]
  dsimp only [ofSlice, Res.bind]
  rw [if_neg (fun hx => by
    have h2 := hx.2
    rw [show currentChar t (List.length t) = none from
      List.get?_eq_none.mpr (Nat.le_refl _)] at h2
    cases h2)]

/-- The CSS tokenizer run at the start of an all-identifier-class ASCII
string whose head is an identifier start emits the whole string as one
`Ident` token. -/
theorem cssNextToken_ident_full {t : Str} (ht : asciiStr t) {c : Char}
    (hc0 : currentChar t 0 = some c)
    (hcls0 : c.isAlpha = true ∨ c = '_' ∨ c = '-')
    (hnum0 : c = '-' → cssIsNumberStart t 0 = false)
    (hcls : ∀ d ∈ t, identClass d = true) :
    cssNextToken t 0 = .ok (some (.Ident t), List.length t) := by
  rw [cssNextToken_ident_dispatch hc0 hcls0 hnum0, cssConsumeIdentOrUrl_full ht hcls]
  rfl

/-- Pulling the CSS token stream of a nonempty ASCII string whose first
pull consumes it whole as an `Ident` yields exactly that token. -/
theorem cssTokens_ident {t : Str} (ht : asciiStr t) (hne : t ≠ [])
    (hfull : cssNextToken t 0 = .ok (some (.Ident t), List.length t)) :
    cssTokens t = .ok [CssToken.Ident t] := by
  have hend : cssNextToken t (List.length t) = .ok (none, List.length t) := by
    unfold cssNextToken
    rw [if_pos (le_of_eq (byteLen_ascii ht))]
  cases t with
  | nil => exact absurd rfl hne
  | cons c0 t2 =>
      show cssTokensFrom (c0 :: t2) (List.length (c0 :: t2) + 1) 0 =
        .ok [CssToken.Ident (c0 :: t2)]
      rw [List.length_cons, cssTokensFrom, hfull]
      dsimp only [Res.bind]
      rw [cssTokensFrom, hend]
      rfl

/-- Inversion of a `Text` emission of the HTML tokenizer on ASCII input:
the token text is exactly the consumed span, which is nonempty, in range,
starts with a non-whitespace character, and contains no `<`. -/
theorem htmlText_emission {s : Str} {pos fuel : Nat} {t : Str} {e : Nat}
    (hs : asciiStr s) (h : htmlNextToken s pos fuel = .ok (some (.Text t), e)) :
    ∃ p c0, t = seg s p e ∧ p < e ∧ e ≤ List.length s ∧
      currentChar s p = some c0 ∧ rustIsWhitespace c0 = false ∧
      ∀ d ∈ t, d ≠ '<' := by
  unfold htmlNextToken at h
  obtain ⟨p, hws, hk⟩ := bind_eq_ok h
  unfold skipWsPos at hws
  obtain ⟨_, _, hwstop⟩ := scanWhile_spec hws
  split at hk
  · have hfst := congrArg Prod.fst (Res.ok.inj hk)
    dsimp only at hfst
    cases hfst
  · cases hcp : currentChar s p with
    | none =>
        rw [hcp] at hk
        dsimp only at hk
        have hfst := congrArg Prod.fst (Res.ok.inj hk)
        dsimp only at hfst
        cases hfst
    | some c0 =>
        rw [hcp] at hk
        dsimp only at hk
        split at hk
        · exact (htmlParseTagOrComment_no_text (by
            rename_i hc0lt
            rw [← hc0lt]
            exact hcp) hk t rfl).elim
        · unfold htmlParseText at hk
          obtain ⟨e1, hscan, hk2⟩ := bind_eq_ok hk
          split at hk2
          · have hfst := congrArg Prod.fst (Res.ok.inj hk2)
            dsimp only at hfst
            cases hfst
          · rename_i hpe1
            obtain ⟨tt, hsl, hk3⟩ := bind_eq_ok hk2
            have h1 := congrArg Prod.fst (Res.ok.inj hk3)
            have h2 := congrArg Prod.snd (Res.ok.inj hk3)
            dsimp only at h1 h2
            cases HtmlToken.Text.inj (Option.some.inj h1)
            subst h2
            obtain ⟨hle, hall, _⟩ := scanWhile_spec hscan
            obtain ⟨hab, hbl, hseg⟩ := sliceBytes_ascii_ok hs (ofSlice_eq_ok hsl)
            refine ⟨p, c0, hseg, by omega, hbl, hcp, hwstop c0 hcp, ?_⟩
            intro d hd
            have := seg_all_of_scan hbl hall d (hseg ▸ hd)
            simpa using this

/-- One pull of the HTML tokenizer at the start of a nonempty ASCII string
that starts with non-whitespace and contains no `<` emits the whole string
as one `Text` token, for any attribute-loop fuel. -/
theorem htmlNextToken_text_full {t : Str} (ht : asciiStr t) (hne : t ≠ [])
    {c0 : Char} (hc0 : currentChar t 0 = some c0) (hw : rustIsWhitespace c0 = false)
    (hlt : ∀ d ∈ t, d ≠ '<') (fuel : Nat) :
    htmlNextToken t 0 fuel = .ok (some (.Text t), List.length t) := by
  unfold htmlNextToken
  rw [show skipWsPos t 0 = .ok 0 from scanWhile_stop hc0 hw]
  dsimp only [Res.bind]
  rw [if_neg (show ¬(byteLen t ≤ 0) from by
    rw [byteLen_ascii ht]
    have h0 := List.length_pos.mpr hne
    omega)]
  rw [hc0]
  dsimp only
  rw [if_neg (hlt c0 (List.get?_mem hc0))]
  unfold htmlParseText
  rw [scanWhile_all (byteLen t + 1) 0 (Nat.zero_le _)
    (by rw [byteLen_ascii ht])
    (fun i d _ hd => by simp [hlt d (List.get?_mem hd)])]
  dsimp only [Res.bind]
  rw [if_neg (show ¬(0 = List.length t) from fun hx =>
    absurd (List.length_eq_zero.mp hx.symm) hne)]
  rw [sliceBytes_ascii_full ht]
  rfl

/-- Pulling the HTML token stream of a nonempty ASCII string whose first
pull consumes it whole as a `Text` token yields exactly that token. -/
theorem htmlTokens_text {t : Str} (ht : asciiStr t) (hne : t ≠ [])
    (hfull : ∀ fuel, htmlNextToken t 0 fuel = .ok (some (.Text t), List.length t)) :
    ∀ fuel, htmlTokens t fuel = .ok [HtmlToken.Text t] := by
  intro fuel
  have hend : htmlNextToken t (List.length t) fuel = .ok (none, List.length t) := by
    unfold htmlNextToken
    rw [show skipWsPos t (List.length t) = .ok (List.length t) from by
      unfold skipWsPos
      rw [scanWhile, show currentChar t (List.length t) = none from
        List.get?_eq_none.mpr (Nat.le_refl _)]]
    dsimp only [Res.bind]
    rw [if_pos (le_of_eq (byteLen_ascii ht))]
  cases t with
  | nil => exact absurd rfl hne
  | cons c0 t2 =>
      show htmlTokensFrom (c0 :: t2) fuel (List.length (c0 :: t2) + 1) 0 =
        .ok [HtmlToken.Text (c0 :: t2)]
      rw [List.length_cons, htmlTokensFrom, hfull fuel]
      dsimp only [Res.bind]
      rw [htmlTokensFrom, hend]
      rfl

/-- C9 (amended): round-trip idempotence holds for the content-faithful
token kinds on ASCII input.  CSS: a token the tokenizer emits at an
identifier start (an alphabetic character, `_`, or a `-` that does not
start a number) whose kind is `Ident` reports exactly the consumed span as
its content, and running a fresh tokenizer on that content reproduces the
same `Ident` token.  HTML: running a fresh tokenizer on the content of any
emitted `Text` token reproduces the same `Text` token, for every
attribute-loop fuel.  (The unamended claim, over all token kinds, is
refuted by `spec_c9_counterexample`: kinds whose content excludes the
consumed delimiters, such as CSS `String`, retokenize to a different
kind.) -/
theorem spec_c9_kind_roundtrip :
    (∀ (s : Str) (pos e : Nat) (c : Char) (t : Str), asciiStr s →
        currentChar s pos = some c →
        (c.isAlpha = true ∨ c = '_' ∨ c = '-') →
        (c = '-' → cssIsNumberStart s pos = false) →
        cssNextToken s pos = .ok (some (.Ident t), e) →
        cssTokens t = .ok [CssToken.Ident t]) ∧
    (∀ (s : Str) (pos fuel e : Nat) (t : Str), asciiStr s →
        htmlNextToken s pos fuel = .ok (some (.Text t), e) →
        ∀ fuel2, htmlTokens t fuel2 = .ok [HtmlToken.Text t]) := by
  constructor
  · intro s pos e c t hs hcc hcls hnum hemit
    obtain ⟨hseg, hpe, hel, hall⟩ := cssIdent_emission hs hcc hcls hnum hemit
    have htascii : asciiStr t := fun d hd => hs d (seg_subset (hseg ▸ hd))
    have hlen : List.length t = e - pos := by
      rw [hseg]
      exact seg_length (Nat.le_of_lt hpe) hel
    have hne : t ≠ [] := by
      intro hx
      rw [hx] at hlen
      simp only [List.length_nil] at hlen
      omega
    have hc0 : currentChar t 0 = some c := by
      show List.get? t 0 = some c
      rw [hseg, seg_get? hel (by omega)]
      exact hcc
    have hnum0 : c = '-' → cssIsNumberStart t 0 = false := by
      intro hcd
      have hsn := hnum hcd
      by_cases hlt2 : pos + 1 < e
      · have hpk : peekChar t 0 1 = peekChar s pos 1 := by
          unfold peekChar
          rw [hseg, seg_get? hel (by omega)]
        unfold cssIsNumberStart at hsn ⊢
        rw [hpk]
        exact hsn
      · have hpk : peekChar t 0 1 = none := by
          unfold peekChar
          apply List.get?_eq_none.mpr
          rw [hlen]
          omega
        unfold cssIsNumberStart
        rw [hpk]
    exact cssTokens_ident htascii hne (cssNextToken_ident_full htascii hc0 hcls hnum0 hall)
  · intro s pos fuel e t hs hemit fuel2
    obtain ⟨p, c0, hseg, hpe, hel, hcp, hw, hlt⟩ := htmlText_emission hs hemit
    have htascii : asciiStr t := fun d hd => hs d (seg_subset (hseg ▸ hd))
    have hlen : List.length t = e - p := by
      rw [hseg]
      exact seg_length (Nat.le_of_lt hpe) hel
    have hne : t ≠ [] := by
      intro hx
      rw [hx] at hlen
      simp only [List.length_nil] at hlen
      omega
    have hc0 : currentChar t 0 = some c0 := by
      show List.get? t 0 = some c0
      rw [hseg, seg_get? hel (by omega)]
      exact hcp
    exact htmlTokens_text htascii hne
      (htmlNextToken_text_full htascii hne hc0 hw hlt) fuel2

/-- Witness for C9: the concrete identifier `ab` and text `hi` round-trip
through their tokenizers. -/
theorem spec_c9_roundtrip_witness :
    cssTokens ("ab".toList) = .ok [CssToken.Ident ("ab".toList)] ∧
    htmlTokens ("hi".toList) 5 = .ok [HtmlToken.Text ("hi".toList)] :=
  ⟨spec_c9_kind_roundtrip.1 ("ab".toList) 0 2 'a' ("ab".toList) (by decide)
      (by decide) (by decide) (by decide) (by decide),
    spec_c9_kind_roundtrip.2 ("hi".toList) 0 7 2 ("hi".toList) (by decide)
      (by decide) 5⟩
